import Mathlib

/-!
Verification of the Entity Canonicalization and Resolution Engine
(extract-entities script, src/unnamed/part_006).

The TypeScript source is shallowly embedded: JavaScript strings are
Lean Strings (lists of Chars; JS semantics such as the whitespace
class of the regex escape for whitespace, word boundaries of the
honorific-stripping regex, and greedy matching are modelled
explicitly), and the Prisma-backed store (tables canonical_entities,
entity_aliases, entities, entity_mentions, entity_candidate_links,
files) is a record of lists with explicit fresh-id counters.  Prisma
row order is modelled as insertion order.  Unicode case mapping is
modelled for ASCII (the corpus of entity mentions); exotic non-ASCII
case foldings of JS toLowerCase are out of scope.
-/

namespace DocLLM

/-- The JS regex whitespace class (backslash-s): ASCII whitespace plus the
Unicode space separators that V8 includes.  Modelled explicitly because the
normalizer keeps whitespace-class characters and collapses them later. -/
def jsWs (c : Char) : Bool :=
  c.toNat = 32 ∨ c.toNat = 9 ∨ c.toNat = 10 ∨ c.toNat = 13 ∨ c.toNat = 11 ∨ c.toNat = 12 ∨
    c.toNat = 160 ∨ c.toNat = 5760 ∨ (8192 ≤ c.toNat ∧ c.toNat ≤ 8202) ∨
    c.toNat = 8232 ∨ c.toNat = 8233 ∨ c.toNat = 8239 ∨ c.toNat = 8287 ∨
    c.toNat = 12288 ∨ c.toNat = 65279

/-- JS regex word character (backslash-w): letters, digits, underscore.
Used for the word-boundary assertion of the honorific regex. -/
def jsWordChar (c : Char) : Bool :=
  (97 ≤ c.toNat ∧ c.toNat ≤ 122) ∨ (65 ≤ c.toNat ∧ c.toNat ≤ 90) ∨
    (48 ≤ c.toNat ∧ c.toNat ≤ 57) ∨ c.toNat = 95

/-- Lowercase ASCII letter. -/
def lowerAlpha (c : Char) : Bool := 97 ≤ c.toNat ∧ c.toNat ≤ 122

/-- ASCII digit. -/
def digitChar (c : Char) : Bool := 48 ≤ c.toNat ∧ c.toNat ≤ 57

/-- JS toLowerCase, modelled on the ASCII range (codes 65 to 90 shift by
32; exotic Unicode case foldings are out of scope). -/
def jsLower (c : Char) : Char :=
  if 65 ≤ c.toNat ∧ c.toNat ≤ 90 then Char.ofNat (c.toNat + 32) else c

/-- The fixed honorific list of normalizeMention, in the alternation order of
the source regex. -/
def honorificWords : List (List Char) :=
  [[ 'm', 'r' ], [ 'm', 'r', 's' ], [ 'm', 's' ], [ 'd', 'r' ],
   [ 'p', 'r', 'o', 'f' ], [ 's', 'i', 'r' ], [ 'm', 'a', 'd', 'a', 'm' ],
   [ 'm', 'i', 's', 's' ], [ 'm', 'i', 's', 't', 'e', 'r' ],
   [ 'p', 'r', 'o', 'f', 'e', 's', 's', 'o', 'r' ],
   [ 'j', 'u', 'd', 'g', 'e' ], [ 'h', 'o', 'n' ],
   [ 'h', 'o', 'n', 'o', 'r', 'a', 'b', 'l', 'e' ]]

/-- If w is a leading run of cs, return the rest of cs. -/
def chopWord : List Char → List Char → Option (List Char)
  | [], cs => some cs
  | _ :: _, [] => none
  | w :: ws, c :: cs => if c = w then chopWord ws cs else none

/-- After an honorific word the regex requires an optional period (only when
allowDot, mirroring the source pattern) and then one or more whitespace
characters, consumed greedily.  Returns the suffix after the whitespace run. -/
def afterHonorific (allowDot : Bool) (cs : List Char) : Option (List Char) :=
  let cs1 := match cs with
    | '.' :: r => if allowDot then r else cs
    | _ => cs
  match cs1 with
  | c :: r => if jsWs c then some (r.dropWhile (fun d => jsWs d)) else none
  | [] => none

/-- Try every honorific alternative in regex order at the current position. -/
def tryHonorifics (allowDot : Bool) : List (List Char) → List Char → Option (List Char)
  | [], _ => none
  | w :: ws, cs =>
    match chopWord w cs with
    | some rest =>
      match afterHonorific allowDot rest with
      | some r => some r
      | none => tryHonorifics allowDot ws cs
    | none => tryHonorifics allowDot ws cs

/-- One pass of the global honorific-stripping regex replace.  prevW tracks
whether the previous character of the original string is a word character
(for the word-boundary assertion); a successful match is replaced by a single
space and scanning resumes after the match.  Structural recursion on fuel;
fuel is initialised to the list length, which every step strictly decreases,
so the fuel-exhausted default is never reached from stripHonorifics. -/
def stripHonGo (allowDot : Bool) : Nat → Bool → List Char → List Char
  | 0, _, cs => cs
  | _ + 1, _, [] => []
  | fuel + 1, prevW, c :: cs =>
    if prevW then c :: stripHonGo allowDot fuel (jsWordChar c) cs
    else
      match tryHonorifics allowDot honorificWords (c :: cs) with
      | some rest => ' ' :: stripHonGo allowDot fuel false rest
      | none => c :: stripHonGo allowDot fuel (jsWordChar c) cs

/-- Global replace of the honorific regex by a single space. -/
def stripHonorifics (allowDot : Bool) (cs : List Char) : List Char :=
  stripHonGo allowDot cs.length false cs

/-- Replace every character that is neither a lowercase ASCII letter, a digit,
nor whitespace-class by a space (the second regex of normalizeMention). -/
def replaceNonAlnumWs (cs : List Char) : List Char :=
  cs.map (fun c => if lowerAlpha c ∨ digitChar c ∨ jsWs c then c else ' ')

/-- Collapse every maximal run of whitespace-class characters to one space
(the third regex of normalizeMention). -/
def collapseWsChars : List Char → List Char
  | [] => []
  | [c] => [if jsWs c then ' ' else c]
  | c :: d :: cs =>
    if jsWs c ∧ jsWs d then collapseWsChars (d :: cs)
    else (if jsWs c then ' ' else c) :: collapseWsChars (d :: cs)

/-- JS String.prototype.trim: drop whitespace-class characters at both ends. -/
def jsTrimChars (cs : List Char) : List Char :=
  ((cs.dropWhile (fun c => jsWs c)).reverse.dropWhile (fun c => jsWs c)).reverse

/-- normalizeMention from the source: lowercase, strip honorifics (with the
optional trailing period of the source regex), wipe non-alphanumerics,
collapse whitespace, trim. -/
def normalizeMention (s : String) : String :=
  String.mk (jsTrimChars (collapseWsChars (replaceNonAlnumWs
    (stripHonorifics true (s.data.map jsLower)))))

/-- Helper for spaceTokens: cur is the reversed current token. -/
def spaceTokensGo (cur : List Char) : List Char → List (List Char)
  | [] => if cur = [] then [] else [cur.reverse]
  | c :: cs =>
    if c = ' ' then
      if cur = [] then spaceTokensGo [] cs else cur.reverse :: spaceTokensGo [] cs
    else spaceTokensGo (c :: cur) cs

/-- Split on single spaces and drop empty pieces, as norm.split on a space
followed by the Boolean filter does in the source. -/
def spaceTokens (cs : List Char) : List (List Char) :=
  spaceTokensGo [] cs

/-- tokensOf from the source (the per-token trim is the identity because the
pieces of a split on spaces contain no whitespace). -/
def tokensOf (text : String) : List String :=
  (spaceTokens (normalizeMention text).data).map String.mk

/-- The last whitespace-delimited token of the normalized text, or the empty
string when there is none. -/
def lastTokenOf (norm : String) : String :=
  String.mk ((spaceTokens norm.data).getLast?.getD [])

inductive EntityType where
  | PERSON
  | LOCATION
  | ORGANIZATION
deriving DecidableEq, Repr

/-- Append x unless present: the observable effect of adding to the JS Set of
buildKeyFingerprints (insertion order preserved). -/
def setAdd (l : List String) (x : String) : List String :=
  if x ∈ l then l else l ++ [x]

/-- buildKeyFingerprints from the source: the full normalized text, plus, for
PERSON and ORGANIZATION, the last token when its length is at least 4. -/
def buildKeyFingerprints (entityType : EntityType) (text : String) : List String :=
  let norm := normalizeMention text
  if norm = "" then []
  else
    let base := [norm]
    if entityType = EntityType.PERSON ∨ entityType = EntityType.ORGANIZATION then
      let last := lastTokenOf norm
      if 4 ≤ last.length then setAdd base last else base
    else base

/-- keyFingerprint from the source: the last token, only when the normalized
text has at least two tokens and the last token has length at least 4. -/
def keyFingerprint (text : String) : Option String :=
  let norm := normalizeMention text
  if norm = "" then none
  else
    let parts := spaceTokens norm.data
    if parts.length < 2 then none
    else
      let last := String.mk (parts.getLast?.getD [])
      if last.length < 4 then none else some last

/-! The normalization pipeline as the specification words it.  The spec
claims the honorifics are stripped when followed by whitespace (no mention of
a period), that every character that is not a lowercase letter, digit, or
space becomes a space, and that runs of whitespace collapse to one space
before trimming.  claimNormalizeMention renders those words exactly;
amendedNormalizeMention additionally lets an optional period follow the
honorific, which is the one correction the source forces. -/

/-- Replace every character that is not a lowercase letter, digit, or space
by a space (the wording of the specification). -/
def replaceNonAlnumSp (cs : List Char) : List Char :=
  cs.map (fun c => if lowerAlpha c ∨ digitChar c ∨ c = ' ' then c else ' ')

/-- Collapse every maximal run of spaces to one space. -/
def collapseSpChars : List Char → List Char
  | [] => []
  | [c] => [c]
  | c :: d :: cs =>
    if c = ' ' ∧ d = ' ' then collapseSpChars (d :: cs)
    else c :: collapseSpChars (d :: cs)

/-- Drop spaces at both ends. -/
def trimSpChars (cs : List Char) : List Char :=
  ((cs.dropWhile (fun c => c = ' ')).reverse.dropWhile (fun c => c = ' ')).reverse

/-- The normalizer exactly as the specification words it: honorifics must be
followed directly by whitespace (no optional period). -/
def claimNormalizeMention (s : String) : String :=
  String.mk (trimSpChars (collapseSpChars (replaceNonAlnumSp
    (stripHonorifics false (s.data.map jsLower)))))

/-- The normalizer as the specification words it, amended with the optional
period after the honorific that the source regex accepts. -/
def amendedNormalizeMention (s : String) : String :=
  String.mk (trimSpChars (collapseSpChars (replaceNonAlnumSp
    (stripHonorifics true (s.data.map jsLower)))))

/-! ## The canonical store

One record of lists per Prisma table touched by the engine, with explicit
counters supplying the auto-increment ids.  Scores are exact rationals (the
source literals 1.0 and 0.6). -/

structure CanonicalEntity where
  id : Nat
  entityType : EntityType
  canonicalText : String
  canonicalNormalized : String
  /-- meta.unresolved -/
  metaUnresolved : Bool
  /-- meta.reason -/
  metaReason : Option String
deriving DecidableEq, Repr

structure EntityAlias where
  id : Nat
  entityType : EntityType
  canonicalEntityId : Nat
  aliasText : String
  aliasNormalized : String
deriving DecidableEq, Repr

/-- A row of the legacy entities table, as created by
getOrCreateLegacyEntityId. -/
structure LegacyEntity where
  id : Nat
  entityText : String
  entityType : EntityType
  normalizedText : String
  canonicalText : String
  aliases : List String
  aliasFingerprints : List String
deriving DecidableEq, Repr

structure EntityMention where
  id : Nat
  fileId : Nat
  entityId : Nat
  canonicalEntityId : Nat
  aliasId : Nat
  mentionText : String
  mentionNormalized : String
  pageNumber : Option Nat
  contextSnippet : String
  mentionPosition : Option Int
  confidence : ℚ
deriving DecidableEq, Repr

structure EntityCandidateLink where
  mentionId : Nat
  candidateCanonicalEntityId : Nat
  score : ℚ
  reason : String
  status : String
deriving DecidableEq, Repr

/-- A row of the files table, reduced to the fields the engine touches. -/
structure FileRow where
  id : Nat
  entitiesExtracted : Bool
deriving DecidableEq, Repr

structure Store where
  canon : List CanonicalEntity
  aliases : List EntityAlias
  legacy : List LegacyEntity
  mentions : List EntityMention
  links : List EntityCandidateLink
  files : List FileRow
  nextCanonId : Nat
  nextAliasId : Nat
  nextLegacyId : Nat
  nextMentionId : Nat
deriving DecidableEq, Repr

inductive Reason where
  | exact
  | keyFp
deriving DecidableEq, Repr

structure AliasCandidate where
  aliasId : Nat
  canonicalEntityId : Nat
  reason : Reason
  score : ℚ
deriving DecidableEq, Repr

/-- The raw mention row assembled by the pipeline before resolution. -/
structure MentionRow where
  mentionText : String
  entityType : EntityType
  mentionNormalized : String
  mentionPosition : Option Int
  contextSnippet : String
deriving DecidableEq, Repr

/-! ## Store operations (the tx calls of the source) -/

/-- upsertAlias: return the id of the existing (canonicalEntityId,
aliasNormalized) row, or create one.  The lookup ignores entityType, exactly
as the source findFirst does. -/
def upsertAlias (st : Store) (entityType : EntityType) (canonicalEntityId : Nat)
    (aliasText aliasNormalized : String) : Store × Nat :=
  match st.aliases.find? (fun a =>
      a.canonicalEntityId == canonicalEntityId && a.aliasNormalized == aliasNormalized) with
  | some a => (st, a.id)
  | none =>
    ({ st with
        aliases := st.aliases ++
          [⟨st.nextAliasId, entityType, canonicalEntityId, aliasText, aliasNormalized⟩],
        nextAliasId := st.nextAliasId + 1 },
      st.nextAliasId)

/-- The for-loop upserting every fingerprint as an alias (aliasText is the
mention text, as in the source). -/
def upsertAliasList (st : Store) (entityType : EntityType) (canonicalEntityId : Nat)
    (aliasText : String) : List String → Store
  | [] => st
  | fp :: fps =>
    upsertAliasList (upsertAlias st entityType canonicalEntityId aliasText fp).1
      entityType canonicalEntityId aliasText fps

/-- tx.canonicalEntity.create. -/
def canonCreate (st : Store) (entityType : EntityType) (canonicalText canonicalNormalized : String)
    (metaUnresolved : Bool) (metaReason : Option String) : Store × CanonicalEntity :=
  let e : CanonicalEntity :=
    ⟨st.nextCanonId, entityType, canonicalText, canonicalNormalized, metaUnresolved, metaReason⟩
  ({ st with canon := st.canon ++ [e], nextCanonId := st.nextCanonId + 1 }, e)

/-- getOrCreateLegacyEntityId from the source: find the legacy entity by
(entityType, normalizedText = canonicalNormalized) or create it. -/
def legacyFindOrCreate (st : Store) (entityType : EntityType)
    (canonicalText canonicalNormalized : String) : Store × Nat :=
  match st.legacy.find? (fun l =>
      l.entityType == entityType && l.normalizedText == canonicalNormalized) with
  | some l => (st, l.id)
  | none =>
    ({ st with
        legacy := st.legacy ++
          [⟨st.nextLegacyId, canonicalText, entityType, canonicalNormalized, canonicalText,
            [canonicalText], buildKeyFingerprints entityType canonicalText⟩],
        nextLegacyId := st.nextLegacyId + 1 },
      st.nextLegacyId)

/-- tx.entityMention.create (pageNumber is always null, confidence 1.0). -/
def mentionCreate (st : Store) (fileId entityId canonicalEntityId aliasId : Nat)
    (m : MentionRow) : Store × Nat :=
  ({ st with
      mentions := st.mentions ++
        [⟨st.nextMentionId, fileId, entityId, canonicalEntityId, aliasId, m.mentionText,
          m.mentionNormalized, none, m.contextSnippet, m.mentionPosition, 1⟩],
      nextMentionId := st.nextMentionId + 1 },
    st.nextMentionId)

/-- The message of the unique-constraint violation the storage layer raises
when a (mentionId, candidateCanonicalEntityId) pair is inserted twice; the
schema declares that pair unique. -/
def linkUniqueViolation : String :=
  "unique constraint violation entity_candidate_links mention_id candidate_canonical_entity_id"

/-- tx.entityCandidateLink.create, enforcing the unique index on
(mentionId, candidateCanonicalEntityId) declared by the schema. -/
def linkCreate (st : Store) (mentionId candidateCanonicalEntityId : Nat) (score : ℚ)
    (reason : String) : Except String Store :=
  if st.links.any (fun l =>
      l.mentionId == mentionId &&
        l.candidateCanonicalEntityId == candidateCanonicalEntityId) then
    Except.error linkUniqueViolation
  else
    Except.ok { st with
      links := st.links ++
        [⟨mentionId, candidateCanonicalEntityId, score, reason, ("PENDING")⟩] }

/-- tx.file.update setting entitiesExtracted. -/
def fileMarkExtracted (st : Store) (fileId : Nat) : Store :=
  { st with
      files := st.files.map (fun f =>
        if f.id == fileId then { f with entitiesExtracted := true } else f) }

/-! ## Candidate matcher -/

/-- A seen key of the source, the string of the id joined with the mechanism
tag; modelled as the pair. -/
abbrev SeenKey := Nat × Reason

/-- The candidate-collecting loop body shared by both mechanisms of
findAliasCandidates: push a candidate per row unless its (id, tag) key was
seen. -/
def collectCands (tag : Reason) (score : ℚ) :
    List SeenKey → List EntityAlias → List AliasCandidate × List SeenKey
  | seen, [] => ([], seen)
  | seen, row :: rows =>
    if (row.canonicalEntityId, tag) ∈ seen then collectCands tag score seen rows
    else
      let (out, seen2) := collectCands tag score ((row.canonicalEntityId, tag) :: seen) rows
      (⟨row.id, row.canonicalEntityId, tag, score⟩ :: out, seen2)

/-- findAliasCandidates from the source: exact alias matches (score 1.0),
then, for PERSON and ORGANIZATION when the last-token fingerprint exists and
differs from the normalized text, fingerprint matches (score 0.6).  Each
query is bounded to 20 rows.  The seen set carries (id, mechanism) keys, so
an entity found by both mechanisms appears twice. -/
def findAliasCandidates (st : Store) (mentionText mentionNormalized : String)
    (entityType : EntityType) : List AliasCandidate :=
  let exactRows := (st.aliases.filter (fun a =>
    a.entityType == entityType && a.aliasNormalized == mentionNormalized)).take 20
  let step1 := collectCands Reason.exact 1 [] exactRows
  if entityType = EntityType.PERSON ∨ entityType = EntityType.ORGANIZATION then
    match keyFingerprint mentionText with
    | some key =>
      if key ≠ mentionNormalized then
        let keyRows := (st.aliases.filter (fun a =>
          a.entityType == entityType && a.aliasNormalized == key)).take 20
        step1.1 ++ (collectCands Reason.keyFp (6 / 10) step1.2 keyRows).1
      else step1.1
    | none => step1.1
  else step1.1

/-! ## Resolution decision engine -/

/-- Array.from of a new Set: first-occurrence deduplication. -/
def dedupeNats (seen : List Nat) : List Nat → List Nat
  | [] => []
  | x :: xs => if x ∈ seen then dedupeNats seen xs else x :: dedupeNats (x :: seen) xs

/-- The distinct canonical entity ids among the exact_alias candidates. -/
def exactSetOf (cands : List AliasCandidate) : List Nat :=
  dedupeNats [] ((cands.filter (fun c => c.reason == Reason.exact)).map
    (fun c => c.canonicalEntityId))

/-- The distinct canonical entity ids among the key_fingerprint candidates. -/
def keySetOf (cands : List AliasCandidate) : List Nat :=
  dedupeNats [] ((cands.filter (fun c => c.reason == Reason.keyFp)).map
    (fun c => c.canonicalEntityId))

/-- What one mention resolution did, mirroring which branch of the source ran
and which stats counter it bumped. -/
inductive Outcome where
  /-- the ambiguous branch: placeholder canonical entity id and mention id -/
  | ambiguousNew (placeholderId mentionId : Nat)
  /-- the brand-new-entity branch -/
  | createdNew (canonicalId mentionId : Nat)
  /-- the merge branch -/
  | mergedInto (canonicalId mentionId : Nat)
  /-- the continue when the chosen canonical row is absent -/
  | skippedMissing
deriving DecidableEq, Repr

/-- The canonical entity id a resolved mention points at. -/
def Outcome.canonId? : Outcome → Option Nat
  | .ambiguousNew p _ => some p
  | .createdNew c _ => some c
  | .mergedInto c _ => some c
  | .skippedMissing => none

/-- The candidate-link reason strings of the source. -/
def linkReasonOf : Reason → String
  | .exact => "exact alias normalized match"
  | .keyFp => "last-token fingerprint match"

/-- The candidate-link creation loop of the ambiguous branch. -/
def createLinks (mentionId : Nat) : Store → List AliasCandidate → Except String Store
  | st, [] => Except.ok st
  | st, c :: cs =>
    match linkCreate st mentionId c.canonicalEntityId c.score (linkReasonOf c.reason) with
    | Except.error e => Except.error e
    | Except.ok st2 => createLinks mentionId st2 cs

/-- The ambiguous branch of the source: placeholder canonical entity with
meta unresolved, its own text as alias, all fingerprints as aliases, legacy
entity, mention row, then one PENDING candidate link per candidate list
entry. -/
def ambiguousBranch (st : Store) (fileId : Nat) (m : MentionRow)
    (cands : List AliasCandidate) : Except String (Store × Outcome) :=
  let cc := canonCreate st m.entityType m.mentionText m.mentionNormalized
    true (some ("ambiguous_alias_match"))
  let u1 := upsertAlias cc.1 m.entityType cc.2.id m.mentionText m.mentionNormalized
  let st3 := upsertAliasList u1.1 m.entityType cc.2.id m.mentionText
    (buildKeyFingerprints m.entityType m.mentionText)
  let lf := legacyFindOrCreate st3 m.entityType cc.2.canonicalText cc.2.canonicalNormalized
  let mc := mentionCreate lf.1 fileId lf.2 cc.2.id u1.2 m
  match createLinks mc.2 mc.1 cands with
  | Except.error e => Except.error e
  | Except.ok st6 => Except.ok (st6, Outcome.ambiguousNew cc.2.id mc.2)

/-- The brand-new-canonical branch of the source. -/
def createBranch (st : Store) (fileId : Nat) (m : MentionRow) : Store × Outcome :=
  let cc := canonCreate st m.entityType m.mentionText m.mentionNormalized false none
  let u1 := upsertAlias cc.1 m.entityType cc.2.id m.mentionText m.mentionNormalized
  let st3 := upsertAliasList u1.1 m.entityType cc.2.id m.mentionText
    (buildKeyFingerprints m.entityType m.mentionText)
  let lf := legacyFindOrCreate st3 m.entityType cc.2.canonicalText cc.2.canonicalNormalized
  let mc := mentionCreate lf.1 fileId lf.2 cc.2.id u1.2 m
  (mc.1, Outcome.createdNew cc.2.id mc.2)

/-- The merge branch of the source, entered with the canonical row found by
findUnique. -/
def mergeBranch (st : Store) (fileId : Nat) (m : MentionRow)
    (canonical : CanonicalEntity) : Store × Outcome :=
  let u1 := upsertAlias st m.entityType canonical.id m.mentionText m.mentionNormalized
  let st2 := upsertAliasList u1.1 m.entityType canonical.id m.mentionText
    (buildKeyFingerprints m.entityType m.mentionText)
  let lf := legacyFindOrCreate st2 m.entityType
    canonical.canonicalText canonical.canonicalNormalized
  let mc := mentionCreate lf.1 fileId lf.2 canonical.id u1.2 m
  (mc.1, Outcome.mergedInto canonical.id mc.2)

/-- One mention resolution, lines 545 to 746 of the source: find candidates,
compute the distinct exact and fingerprint canonical sets, then dispatch to
the ambiguous, merge, or create branch. -/
def resolveMention (st : Store) (fileId : Nat) (m : MentionRow) :
    Except String (Store × Outcome) :=
  let cands := findAliasCandidates st m.mentionText m.mentionNormalized m.entityType
  let exactCanonicals := exactSetOf cands
  let keyCanonicals := keySetOf cands
  if 1 < exactCanonicals.length ∨ (exactCanonicals.length = 0 ∧ 1 < keyCanonicals.length) then
    ambiguousBranch st fileId m cands
  else
    match (if exactCanonicals.length = 1 then exactCanonicals.head?
           else if keyCanonicals.length = 1 then keyCanonicals.head? else none) with
    | none => Except.ok (createBranch st fileId m)
    | some chosenCanonicalId =>
      match st.canon.find? (fun e => e.id == chosenCanonicalId) with
      | none => Except.ok (st, Outcome.skippedMissing)
      | some canonical => Except.ok (mergeBranch st fileId m canonical)

/-! ## Mention ingestion pipeline -/

/-- A raw extracted entity as returned by the upstream extractor. -/
structure ExtractedEntity where
  text : String
  type : EntityType
  context : Option String
  position : Option Int
deriving DecidableEq, Repr

/-- JS String.prototype.trim. -/
def jsTrim (s : String) : String := String.mk (jsTrimChars s.data)

/-- JS String.prototype.indexOf, first occurrence. -/
def strIndexOfGo (needle : List Char) : Nat → List Char → Option Nat
  | _, [] => if needle = [] then some 0 else none
  | i, c :: cs =>
    if needle.isPrefixOf (c :: cs) then some i else strIndexOfGo needle (i + 1) cs

/-- Position of the first occurrence of needle in hay, if any. -/
def strIndexOf (hay needle : String) : Option Nat :=
  match hay.data, needle.data with
  | [], [] => some 0
  | h, n => strIndexOfGo n 0 h

/-- buildContextSnippet from the source: 100 characters each side. -/
def buildContextSnippet (fullText : String) (position : Nat) (entityLen : Nat) : String :=
  let start := position - 100
  let stop := min fullText.length (position + max entityLen 1 + 100)
  String.mk ((fullText.data.drop start).take (stop - start))

/-- The inner loop of the extraction phase, lines 491 to 518 of the source:
trim each extracted text, drop empty texts, recover a position (the reported
one when finite and nonnegative, else the first occurrence in the chunk),
build the context snippet, normalize, and drop mentions whose normalized
form is empty. -/
def mentionRowsOfChunk (fullText : String) (offset : Nat) (chunkText : String) :
    List ExtractedEntity → List MentionRow
  | [] => []
  | e :: es =>
    let rest := mentionRowsOfChunk fullText offset chunkText es
    let mentionText := jsTrim e.text
    if mentionText = "" then rest
    else
      let posInChunk : Option Nat :=
        match e.position with
        | some p => if 0 ≤ p then some p.toNat else strIndexOf chunkText mentionText
        | none => strIndexOf chunkText mentionText
      let globalPos := posInChunk.map (fun p => offset + p)
      let contextSnippet :=
        match globalPos with
        | some gp => buildContextSnippet fullText gp mentionText.length
        | none => e.context.getD ""
      let mentionNormalized := normalizeMention mentionText
      if mentionNormalized = "" then rest
      else
        ⟨mentionText, e.type, mentionNormalized, globalPos.map (fun p => (p : Int)),
          contextSnippet⟩ :: rest

/-- JS toLowerCase of a whole string (ASCII model). -/
def jsLowerStr (s : String) : String := String.mk (s.data.map jsLower)

/-- The deduplication key the source builds, the string of entityType,
mentionNormalized, position (null as -1) and lowercased mentionText joined
with the bar character; modelled as the tuple, which the separator makes
equivalent because normalized text never contains a bar. -/
def mentionKey (m : MentionRow) : EntityType × String × Int × String :=
  (m.entityType, m.mentionNormalized, m.mentionPosition.getD (-1), jsLowerStr m.mentionText)

/-- The per-document mention deduplication of the source (lines 523 to 530),
keyed by mentionKey, keeping first occurrences. -/
def dedupeMentionRows (seen : List (EntityType × String × Int × String)) :
    List MentionRow → List MentionRow
  | [] => []
  | m :: ms =>
    if mentionKey m ∈ seen then dedupeMentionRows seen ms
    else m :: dedupeMentionRows (mentionKey m :: seen) ms

/-- The deduplication key as the specification words it: entity type,
normalized text, position only. -/
def claimMentionKey (m : MentionRow) : EntityType × String × Int :=
  (m.entityType, m.mentionNormalized, m.mentionPosition.getD (-1))

/-- Deduplication as the specification words it, keyed by claimMentionKey. -/
def claimDedupeMentionRows (seen : List (EntityType × String × Int)) :
    List MentionRow → List MentionRow
  | [] => []
  | m :: ms =>
    if claimMentionKey m ∈ seen then claimDedupeMentionRows seen ms
    else m :: claimDedupeMentionRows (claimMentionKey m :: seen) ms

/-- The document of mention rows handed to one transaction. -/
structure DocMentions where
  fileId : Nat
  rows : List MentionRow
deriving DecidableEq, Repr

/-- Resolve each deduplicated mention in order, propagating the first
storage error. -/
def resolveAll (fileId : Nat) : Store → List MentionRow → Except String Store
  | st, [] => Except.ok st
  | st, m :: ms =>
    match resolveMention st fileId m with
    | Except.error e => Except.error e
    | Except.ok p => resolveAll fileId p.1 ms

/-- The body of the per-document prisma transaction (without the reprocess
deleteMany, modelling the default run): resolve every deduplicated mention,
then mark the file extracted.  All-or-nothing: an error yields no store. -/
def docTransaction (st : Store) (d : DocMentions) : Except String Store :=
  match resolveAll d.fileId st (dedupeMentionRows [] d.rows) with
  | Except.error e => Except.error e
  | Except.ok st2 => Except.ok (fileMarkExtracted st2 d.fileId)

/-- The document loop with its per-document try/catch: a failed transaction
leaves the store untouched (rollback), bumps the failed tally, and the loop
continues.  Returns the final store with the processed and failed counts. -/
def ingestDocs : Store → List DocMentions → Store × Nat × Nat
  | st, [] => (st, 0, 0)
  | st, d :: ds =>
    match docTransaction st d with
    | Except.error _ =>
      ((ingestDocs st ds).1, (ingestDocs st ds).2.1, (ingestDocs st ds).2.2 + 1)
    | Except.ok st1 =>
      ((ingestDocs st1 ds).1, (ingestDocs st1 ds).2.1 + 1, (ingestDocs st1 ds).2.2)

/-- Decidable equality for Except values, needed to evaluate the engine on
concrete stores inside proofs. -/
instance exceptDecEq {α β : Type} [DecidableEq α] [DecidableEq β] :
    DecidableEq (Except α β) := fun a b =>
  match a, b with
  | Except.ok x, Except.ok y =>
    if h : x = y then isTrue (by rw [h]) else isFalse (by simp [h])
  | Except.error x, Except.error y =>
    if h : x = y then isTrue (by rw [h]) else isFalse (by simp [h])
  | Except.ok _, Except.error _ => isFalse (by simp)
  | Except.error _, Except.ok _ => isFalse (by simp)

/-! ## Concrete stores used by counterexamples and witnesses -/

/-- The store left by ingesting the single PERSON mention Jeffrey Epstein
into an empty store: one canonical entity whose aliases are the full name
and the surname fingerprint. -/
def c3Store : Store :=
  ⟨[⟨1, EntityType.PERSON, "Jeffrey Epstein", "jeffrey epstein", false, none⟩],
   [⟨1, EntityType.PERSON, 1, "Jeffrey Epstein", "jeffrey epstein"⟩,
    ⟨2, EntityType.PERSON, 1, "Jeffrey Epstein", "epstein"⟩],
   [], [], [], [⟨1, false⟩], 2, 3, 1, 1⟩

/-- Two canonical PERSON entities that both carry the exact alias smith (the
genuine ambiguity situation of the specification). -/
def c2Store : Store :=
  ⟨[⟨1, EntityType.PERSON, "John Smith", "john smith", false, none⟩,
    ⟨2, EntityType.PERSON, "Jane Smith", "jane smith", false, none⟩],
   [⟨1, EntityType.PERSON, 1, "Smith", "smith"⟩,
    ⟨2, EntityType.PERSON, 2, "Smith", "smith"⟩],
   [], [], [], [⟨1, false⟩], 3, 3, 1, 1⟩

/-- The PERSON mention Smith. -/
def c2Mention : MentionRow := ⟨"Smith", EntityType.PERSON, "smith", none, ""⟩

/-- Entity 1 carries aliases john smith and smith; entity 2 carries john
smith: a John Smith mention is ambiguous with entity 1 in both candidate
mechanisms. -/
def c4Store : Store :=
  ⟨[⟨1, EntityType.PERSON, "John Smith", "john smith", false, none⟩,
    ⟨2, EntityType.PERSON, "John Smith", "john smith", false, none⟩],
   [⟨1, EntityType.PERSON, 1, "John Smith", "john smith"⟩,
    ⟨2, EntityType.PERSON, 1, "Smith", "smith"⟩,
    ⟨3, EntityType.PERSON, 2, "John Smith", "john smith"⟩],
   [], [], [], [⟨1, false⟩], 3, 4, 1, 1⟩

/-- The PERSON mention John Smith. -/
def c4Mention : MentionRow := ⟨"John Smith", EntityType.PERSON, "john smith", none, ""⟩

/-! ## Store invariant -/

/-- Well-formedness of the store, as the schema and the engine maintain it:
canonical ids are unique and below the id counter, every alias belongs to an
existing canonical entity of its own entity type, no two alias rows share
(canonicalEntityId, aliasNormalized) (the unique index), and every mention
points at a legacy entity row whose type and normalized text agree with the
mention's canonical entity. -/
def Inv (st : Store) : Prop :=
  st.canon.Pairwise (fun a b => a.id ≠ b.id) ∧
    (∀ e ∈ st.canon, e.id < st.nextCanonId) ∧
    (∀ a ∈ st.aliases,
      ∃ e ∈ st.canon, e.id = a.canonicalEntityId ∧ e.entityType = a.entityType) ∧
    st.aliases.Pairwise (fun a b =>
      a.canonicalEntityId ≠ b.canonicalEntityId ∨ a.aliasNormalized ≠ b.aliasNormalized) ∧
    (∀ mr ∈ st.mentions, ∃ l ∈ st.legacy, l.id = mr.entityId ∧
      ∃ e ∈ st.canon, e.id = mr.canonicalEntityId ∧ l.entityType = e.entityType ∧
        l.normalizedText = e.canonicalNormalized)

/-- The invariant is decidable, so witnesses can check it on concrete
stores. -/
instance invDecidable (st : Store) : Decidable (Inv st) := by
  unfold Inv
  infer_instance

/-! ## Effect lemmas for the store operations -/

/-- st2 differs from st at most in the aliases table and its id counter. -/
def AliasOnlyDiff (st st2 : Store) : Prop :=
  st2.canon = st.canon ∧ st2.legacy = st.legacy ∧ st2.mentions = st.mentions ∧
    st2.links = st.links ∧ st2.files = st.files ∧ st2.nextCanonId = st.nextCanonId ∧
    st2.nextLegacyId = st.nextLegacyId ∧ st2.nextMentionId = st.nextMentionId

theorem aliasOnlyDiff_refl (st : Store) : AliasOnlyDiff st st :=
  ⟨rfl, rfl, rfl, rfl, rfl, rfl, rfl, rfl⟩

theorem aliasOnlyDiff_trans {s1 s2 s3 : Store} (h1 : AliasOnlyDiff s1 s2)
    (h2 : AliasOnlyDiff s2 s3) : AliasOnlyDiff s1 s3 :=
  ⟨h2.1.trans h1.1, h2.2.1.trans h1.2.1, h2.2.2.1.trans h1.2.2.1,
    h2.2.2.2.1.trans h1.2.2.2.1, h2.2.2.2.2.1.trans h1.2.2.2.2.1,
    h2.2.2.2.2.2.1.trans h1.2.2.2.2.2.1, h2.2.2.2.2.2.2.1.trans h1.2.2.2.2.2.2.1,
    h2.2.2.2.2.2.2.2.trans h1.2.2.2.2.2.2.2⟩

theorem upsertAlias_untouched (st : Store) (ty : EntityType) (cid : Nat) (t n : String) :
    AliasOnlyDiff st (upsertAlias st ty cid t n).1 := by
  unfold upsertAlias
  cases st.aliases.find? (fun a => a.canonicalEntityId == cid && a.aliasNormalized == n) with
  | none => exact ⟨rfl, rfl, rfl, rfl, rfl, rfl, rfl, rfl⟩
  | some a => exact ⟨rfl, rfl, rfl, rfl, rfl, rfl, rfl, rfl⟩

theorem upsertAlias_aliases (st : Store) (ty : EntityType) (cid : Nat) (t n : String) :
    (upsertAlias st ty cid t n).1.aliases = st.aliases ∨
      ((upsertAlias st ty cid t n).1.aliases =
          st.aliases ++ [⟨st.nextAliasId, ty, cid, t, n⟩] ∧
        ∀ a ∈ st.aliases, ¬(a.canonicalEntityId = cid ∧ a.aliasNormalized = n)) := by
  unfold upsertAlias
  cases h : st.aliases.find? (fun a => a.canonicalEntityId == cid && a.aliasNormalized == n) with
  | some a => exact Or.inl rfl
  | none =>
    refine Or.inr ⟨rfl, fun a ha hprop => ?_⟩
    have := List.find?_eq_none.mp h a ha
    simp only [Bool.and_eq_true, beq_iff_eq] at this
    exact this ⟨hprop.1, hprop.2⟩

theorem upsertAlias_registered (st : Store) (ty : EntityType) (cid : Nat) (t n : String) :
    ∃ a ∈ (upsertAlias st ty cid t n).1.aliases,
      a.canonicalEntityId = cid ∧ a.aliasNormalized = n := by
  unfold upsertAlias
  cases h : st.aliases.find? (fun a => a.canonicalEntityId == cid && a.aliasNormalized == n) with
  | some a =>
    have hmem := List.mem_of_find?_eq_some h
    have hprop := List.find?_some h
    simp only [Bool.and_eq_true, beq_iff_eq] at hprop
    exact ⟨a, hmem, hprop⟩
  | none =>
    exact ⟨⟨st.nextAliasId, ty, cid, t, n⟩, by simp, rfl, rfl⟩

theorem upsertAlias_inv_owner (st : Store) (ty : EntityType) (cid : Nat) (t n : String)
    (hcid : ∃ e ∈ st.canon, e.id = cid ∧ e.entityType = ty)
    (h3 : ∀ a ∈ st.aliases,
      ∃ e ∈ st.canon, e.id = a.canonicalEntityId ∧ e.entityType = a.entityType) :
    ∀ a ∈ (upsertAlias st ty cid t n).1.aliases,
      ∃ e ∈ st.canon, e.id = a.canonicalEntityId ∧ e.entityType = a.entityType := by
  rcases upsertAlias_aliases st ty cid t n with h | ⟨h, _⟩ <;> rw [h]
  · exact h3
  · intro a ha
    rcases List.mem_append.mp ha with ha2 | ha2
    · exact h3 a ha2
    · rw [List.mem_singleton.mp ha2]
      exact hcid

theorem upsertAlias_inv_nodup (st : Store) (ty : EntityType) (cid : Nat) (t n : String)
    (h4 : st.aliases.Pairwise (fun a b =>
      a.canonicalEntityId ≠ b.canonicalEntityId ∨ a.aliasNormalized ≠ b.aliasNormalized)) :
    (upsertAlias st ty cid t n).1.aliases.Pairwise (fun a b =>
      a.canonicalEntityId ≠ b.canonicalEntityId ∨ a.aliasNormalized ≠ b.aliasNormalized) := by
  rcases upsertAlias_aliases st ty cid t n with h | ⟨h, hnew⟩ <;> rw [h]
  · exact h4
  · rw [List.pairwise_append]
    refine ⟨h4, List.pairwise_singleton _ _, fun a ha b hb => ?_⟩
    rw [List.mem_singleton.mp hb]
    by_cases hc : a.canonicalEntityId = cid
    · exact Or.inr (fun hn => hnew a ha ⟨hc, hn⟩)
    · exact Or.inl hc

theorem upsertAliasList_untouched (ty : EntityType) (cid : Nat) (t : String) :
    ∀ (fps : List String) (st : Store),
    AliasOnlyDiff st (upsertAliasList st ty cid t fps)
  | [], st => aliasOnlyDiff_refl st
  | fp :: fps, st => by
    rw [upsertAliasList]
    exact aliasOnlyDiff_trans (upsertAlias_untouched st ty cid t fp)
      (upsertAliasList_untouched ty cid t fps (upsertAlias st ty cid t fp).1)

/-- The alias table only grows, and every new row belongs to the given
canonical entity, carries the given entity type, and has one of the given
normalized forms. -/
theorem upsertAliasList_ext (ty : EntityType) (cid : Nat) (t : String) :
    ∀ (fps : List String) (st : Store),
    ∃ tail, (upsertAliasList st ty cid t fps).aliases = st.aliases ++ tail ∧
      ∀ a ∈ tail, a.canonicalEntityId = cid ∧ a.entityType = ty ∧ a.aliasNormalized ∈ fps
  | [], st => ⟨[], by simp [upsertAliasList], by simp⟩
  | fp :: fps, st => by
    rw [upsertAliasList]
    obtain ⟨tail2, h2, hprop2⟩ :=
      upsertAliasList_ext ty cid t fps (upsertAlias st ty cid t fp).1
    rcases upsertAlias_aliases st ty cid t fp with h1 | ⟨h1, _⟩
    · exact ⟨tail2, by rw [h2, h1], fun a ha =>
        ⟨(hprop2 a ha).1, (hprop2 a ha).2.1, List.mem_cons_of_mem fp (hprop2 a ha).2.2⟩⟩
    · refine ⟨⟨st.nextAliasId, ty, cid, t, fp⟩ :: tail2, ?_, ?_⟩
      · rw [h2, h1, List.append_assoc]
        rfl
      · intro a ha
        rcases List.mem_cons.mp ha with rfl | ha2
        · exact ⟨rfl, rfl, List.mem_cons_self fp fps⟩
        · exact ⟨(hprop2 a ha2).1, (hprop2 a ha2).2.1,
            List.mem_cons_of_mem fp (hprop2 a ha2).2.2⟩

/-- Every listed normalized form ends up registered for the canonical
entity. -/
theorem upsertAliasList_registered (ty : EntityType) (cid : Nat) (t : String) :
    ∀ (fps : List String) (st : Store), ∀ n ∈ fps,
    ∃ a ∈ (upsertAliasList st ty cid t fps).aliases,
      a.canonicalEntityId = cid ∧ a.aliasNormalized = n
  | [], _, n, hn => absurd hn (List.not_mem_nil n)
  | fp :: fps, st, n, hn => by
    rw [upsertAliasList]
    rcases List.mem_cons.mp hn with rfl | hn2
    · obtain ⟨a, ha, hprop⟩ := upsertAlias_registered st ty cid t n
      obtain ⟨tail2, h2, _⟩ :=
        upsertAliasList_ext ty cid t fps (upsertAlias st ty cid t n).1
      exact ⟨a, by rw [h2]; exact List.mem_append_left tail2 ha, hprop⟩
    · exact upsertAliasList_registered ty cid t fps (upsertAlias st ty cid t fp).1 n hn2

/-- Alias ownership typing is preserved by the fingerprint upsert loop. -/
theorem upsertAliasList_inv_owner (ty : EntityType) (cid : Nat) (t : String) :
    ∀ (fps : List String) (st : Store),
    (∃ e ∈ st.canon, e.id = cid ∧ e.entityType = ty) →
    (∀ a ∈ st.aliases,
      ∃ e ∈ st.canon, e.id = a.canonicalEntityId ∧ e.entityType = a.entityType) →
    ∀ a ∈ (upsertAliasList st ty cid t fps).aliases,
      ∃ e ∈ st.canon, e.id = a.canonicalEntityId ∧ e.entityType = a.entityType
  | [], _, _, h3 => h3
  | fp :: fps, st, hcid, h3 => by
    rw [upsertAliasList]
    have hcanon := (upsertAlias_untouched st ty cid t fp).1
    have step := upsertAlias_inv_owner st ty cid t fp hcid h3
    have hcid2 : ∃ e ∈ (upsertAlias st ty cid t fp).1.canon,
        e.id = cid ∧ e.entityType = ty := by rw [hcanon]; exact hcid
    have := upsertAliasList_inv_owner ty cid t fps (upsertAlias st ty cid t fp).1 hcid2
      (by rw [hcanon]; exact step)
    intro a ha
    have res := this a ha
    rw [hcanon] at res
    exact res

/-- The alias unique index is preserved by the fingerprint upsert loop. -/
theorem upsertAliasList_inv_nodup (ty : EntityType) (cid : Nat) (t : String) :
    ∀ (fps : List String) (st : Store),
    st.aliases.Pairwise (fun a b =>
      a.canonicalEntityId ≠ b.canonicalEntityId ∨ a.aliasNormalized ≠ b.aliasNormalized) →
    (upsertAliasList st ty cid t fps).aliases.Pairwise (fun a b =>
      a.canonicalEntityId ≠ b.canonicalEntityId ∨ a.aliasNormalized ≠ b.aliasNormalized)
  | [], _, h4 => h4
  | fp :: fps, st, h4 => by
    rw [upsertAliasList]
    exact upsertAliasList_inv_nodup ty cid t fps (upsertAlias st ty cid t fp).1
      (upsertAlias_inv_nodup st ty cid t fp h4)

theorem legacyFindOrCreate_untouched (st : Store) (ty : EntityType) (ct cn : String) :
    (legacyFindOrCreate st ty ct cn).1.canon = st.canon ∧
      (legacyFindOrCreate st ty ct cn).1.aliases = st.aliases ∧
      (legacyFindOrCreate st ty ct cn).1.mentions = st.mentions ∧
      (legacyFindOrCreate st ty ct cn).1.links = st.links ∧
      (legacyFindOrCreate st ty ct cn).1.files = st.files ∧
      (legacyFindOrCreate st ty ct cn).1.nextCanonId = st.nextCanonId ∧
      (legacyFindOrCreate st ty ct cn).1.nextAliasId = st.nextAliasId ∧
      (legacyFindOrCreate st ty ct cn).1.nextMentionId = st.nextMentionId ∧
      ∃ tail, (legacyFindOrCreate st ty ct cn).1.legacy = st.legacy ++ tail := by
  unfold legacyFindOrCreate
  cases st.legacy.find? (fun l => l.entityType == ty && l.normalizedText == cn) with
  | some l => exact ⟨rfl, rfl, rfl, rfl, rfl, rfl, rfl, rfl, [], by simp⟩
  | none => exact ⟨rfl, rfl, rfl, rfl, rfl, rfl, rfl, rfl, [_], rfl⟩

/-- The returned legacy id denotes a row of the right type and normalized
text. -/
theorem legacyFindOrCreate_result (st : Store) (ty : EntityType) (ct cn : String) :
    ∃ l ∈ (legacyFindOrCreate st ty ct cn).1.legacy,
      l.id = (legacyFindOrCreate st ty ct cn).2 ∧ l.entityType = ty ∧
        l.normalizedText = cn := by
  unfold legacyFindOrCreate
  cases h : st.legacy.find? (fun l => l.entityType == ty && l.normalizedText == cn) with
  | some l =>
    have hmem := List.mem_of_find?_eq_some h
    have hprop := List.find?_some h
    simp only [Bool.and_eq_true, beq_iff_eq] at hprop
    exact ⟨l, hmem, rfl, hprop.1, hprop.2⟩
  | none =>
    exact ⟨⟨st.nextLegacyId, ct, ty, cn, ct, [ct], buildKeyFingerprints ty ct⟩,
      by simp, rfl, rfl, rfl⟩

/-- The row written by mentionCreate. -/
def mentionRowWritten (st : Store) (fileId entityId canonicalEntityId aliasId : Nat)
    (m : MentionRow) : EntityMention :=
  ⟨st.nextMentionId, fileId, entityId, canonicalEntityId, aliasId, m.mentionText,
    m.mentionNormalized, none, m.contextSnippet, m.mentionPosition, 1⟩

/-- The write chain shared by every resolution branch: upsert the normalized
text, upsert every fingerprint, find or create the legacy entity for
(entityType, cn), then write the mention row.  The intermediate stores are
abstracted by their defining equations.  Characterizes the final store. -/
theorem chain_spec (st u1st st2 lfst : Store) (aid lid : Nat) (fid : Nat) (m : MentionRow)
    (cid : Nat) (ct cn : String)
    (hu : upsertAlias st m.entityType cid m.mentionText m.mentionNormalized = (u1st, aid))
    (hl : upsertAliasList u1st m.entityType cid m.mentionText
      (buildKeyFingerprints m.entityType m.mentionText) = st2)
    (hfo : legacyFindOrCreate st2 m.entityType ct cn = (lfst, lid)) :
    (mentionCreate lfst fid lid cid aid m).1.canon = st.canon ∧
      (mentionCreate lfst fid lid cid aid m).1.nextCanonId = st.nextCanonId ∧
      (mentionCreate lfst fid lid cid aid m).1.links = st.links ∧
      (mentionCreate lfst fid lid cid aid m).1.files = st.files ∧
      (∃ tailL, (mentionCreate lfst fid lid cid aid m).1.legacy = st.legacy ++ tailL) ∧
      (mentionCreate lfst fid lid cid aid m).2 = st.nextMentionId ∧
      (mentionCreate lfst fid lid cid aid m).1.mentions =
        st.mentions ++ [mentionRowWritten st fid lid cid aid m] ∧
      (∃ tailA, (mentionCreate lfst fid lid cid aid m).1.aliases = st.aliases ++ tailA ∧
        ∀ a ∈ tailA, a.canonicalEntityId = cid ∧ a.entityType = m.entityType ∧
          a.aliasNormalized ∈
            m.mentionNormalized :: buildKeyFingerprints m.entityType m.mentionText) ∧
      (∀ s ∈ m.mentionNormalized :: buildKeyFingerprints m.entityType m.mentionText,
        ∃ a ∈ (mentionCreate lfst fid lid cid aid m).1.aliases,
          a.canonicalEntityId = cid ∧ a.aliasNormalized = s) ∧
      (st.aliases.Pairwise (fun a b =>
          a.canonicalEntityId ≠ b.canonicalEntityId ∨ a.aliasNormalized ≠ b.aliasNormalized) →
        (mentionCreate lfst fid lid cid aid m).1.aliases.Pairwise (fun a b =>
          a.canonicalEntityId ≠ b.canonicalEntityId ∨ a.aliasNormalized ≠ b.aliasNormalized)) ∧
      (∃ l ∈ (mentionCreate lfst fid lid cid aid m).1.legacy,
        l.id = lid ∧ l.entityType = m.entityType ∧ l.normalizedText = cn) := by
  have hu1 : (upsertAlias st m.entityType cid m.mentionText m.mentionNormalized).1 = u1st :=
    congrArg Prod.fst hu
  have hu2 : (upsertAlias st m.entityType cid m.mentionText m.mentionNormalized).2 = aid :=
    congrArg Prod.snd hu
  have hf1 : (legacyFindOrCreate st2 m.entityType ct cn).1 = lfst := congrArg Prod.fst hfo
  have hf2 : (legacyFindOrCreate st2 m.entityType ct cn).2 = lid := congrArg Prod.snd hfo
  have hud := upsertAlias_untouched st m.entityType cid m.mentionText m.mentionNormalized
  rw [hu1] at hud
  have hld := upsertAliasList_untouched m.entityType cid m.mentionText
    (buildKeyFingerprints m.entityType m.mentionText) u1st
  rw [hl] at hld
  have hul : AliasOnlyDiff st st2 := aliasOnlyDiff_trans hud hld
  have hfd := legacyFindOrCreate_untouched st2 m.entityType ct cn
  rw [hf1] at hfd
  have hmcA : (mentionCreate lfst fid lid cid aid m).1.aliases = st2.aliases := hfd.2.1
  refine ⟨?_, ?_, ?_, ?_, ?_, ?_, ?_, ?_, ?_, ?_, ?_⟩
  · show lfst.canon = st.canon
    rw [hfd.1, hul.1]
  · show lfst.nextCanonId = st.nextCanonId
    rw [hfd.2.2.2.2.2.1, hul.2.2.2.2.2.1]
  · show lfst.links = st.links
    rw [hfd.2.2.2.1, hul.2.2.2.1]
  · show lfst.files = st.files
    rw [hfd.2.2.2.2.1, hul.2.2.2.2.1]
  · obtain ⟨tailL, htail⟩ := hfd.2.2.2.2.2.2.2.2
    refine ⟨tailL, ?_⟩
    show lfst.legacy = st.legacy ++ tailL
    rw [htail, hul.2.1]
  · show lfst.nextMentionId = st.nextMentionId
    rw [hfd.2.2.2.2.2.2.2.1, hul.2.2.2.2.2.2.2]
  · show lfst.mentions ++ _ = _
    rw [hfd.2.2.1, hul.2.2.1]
    unfold mentionRowWritten
    have : lfst.nextMentionId = st.nextMentionId := by
      rw [hfd.2.2.2.2.2.2.2.1, hul.2.2.2.2.2.2.2]
    rw [this]
  · obtain ⟨tail2, h2, hprop2⟩ := upsertAliasList_ext m.entityType cid m.mentionText
      (buildKeyFingerprints m.entityType m.mentionText) u1st
    rw [hl] at h2
    rcases upsertAlias_aliases st m.entityType cid m.mentionText m.mentionNormalized with
      h1 | ⟨h1, _⟩
    · rw [hu1] at h1
      refine ⟨tail2, ?_, fun a ha => ⟨(hprop2 a ha).1, (hprop2 a ha).2.1,
        List.mem_cons_of_mem _ (hprop2 a ha).2.2⟩⟩
      rw [hmcA, h2, h1]
    · rw [hu1] at h1
      refine ⟨⟨st.nextAliasId, m.entityType, cid, m.mentionText, m.mentionNormalized⟩ :: tail2,
        ?_, ?_⟩
      · rw [hmcA, h2, h1, List.append_assoc]
        rfl
      · intro a ha
        rcases List.mem_cons.mp ha with rfl | ha2
        · exact ⟨rfl, rfl, List.mem_cons_self _ _⟩
        · exact ⟨(hprop2 a ha2).1, (hprop2 a ha2).2.1,
            List.mem_cons_of_mem _ (hprop2 a ha2).2.2⟩
  · intro s hs
    rw [hmcA]
    rcases List.mem_cons.mp hs with rfl | hs2
    · obtain ⟨a, ha, hprop⟩ := upsertAlias_registered st m.entityType cid m.mentionText
        m.mentionNormalized
      obtain ⟨tail2, h2, _⟩ := upsertAliasList_ext m.entityType cid m.mentionText
        (buildKeyFingerprints m.entityType m.mentionText) u1st
      rw [hl] at h2
      rw [hu1] at ha
      exact ⟨a, by rw [h2]; exact List.mem_append_left tail2 ha, hprop⟩
    · have := upsertAliasList_registered m.entityType cid m.mentionText
        (buildKeyFingerprints m.entityType m.mentionText) u1st s hs2
      rw [hl] at this
      exact this
  · intro h4
    rw [hmcA]
    have step := upsertAlias_inv_nodup st m.entityType cid m.mentionText m.mentionNormalized h4
    rw [hu1] at step
    have := upsertAliasList_inv_nodup m.entityType cid m.mentionText
      (buildKeyFingerprints m.entityType m.mentionText) u1st step
    rw [hl] at this
    exact this
  · obtain ⟨l, hlm, hprop⟩ := legacyFindOrCreate_result st2 m.entityType ct cn
    rw [hf1] at hlm
    rw [hf2] at hprop
    exact ⟨l, hlm, hprop⟩

/-- The merge branch: no canonical entity is created, the mention's
normalized text and fingerprints are registered for the chosen entity, the
mention row points at it, and the invariant is preserved. -/
theorem mergeBranch_spec (st : Store) (fid : Nat) (m : MentionRow)
    (canonical : CanonicalEntity) (hInv : Inv st) (he : canonical ∈ st.canon)
    (hty : canonical.entityType = m.entityType) :
    (mergeBranch st fid m canonical).2 =
        Outcome.mergedInto canonical.id st.nextMentionId ∧
      (mergeBranch st fid m canonical).1.canon = st.canon ∧
      (mergeBranch st fid m canonical).1.links = st.links ∧
      (∀ s ∈ m.mentionNormalized :: buildKeyFingerprints m.entityType m.mentionText,
        ∃ a ∈ (mergeBranch st fid m canonical).1.aliases,
          a.canonicalEntityId = canonical.id ∧ a.aliasNormalized = s) ∧
      (∃ row, (mergeBranch st fid m canonical).1.mentions = st.mentions ++ [row] ∧
        row.canonicalEntityId = canonical.id ∧ row.id = st.nextMentionId ∧
        row.mentionNormalized = m.mentionNormalized) ∧
      Inv (mergeBranch st fid m canonical).1 := by
  obtain ⟨h1, h2, h3, h4, h5⟩ := hInv
  have hu : upsertAlias st m.entityType canonical.id m.mentionText m.mentionNormalized =
      ((upsertAlias st m.entityType canonical.id m.mentionText m.mentionNormalized).1,
        (upsertAlias st m.entityType canonical.id m.mentionText m.mentionNormalized).2) := rfl
  have chain := chain_spec st
    (upsertAlias st m.entityType canonical.id m.mentionText m.mentionNormalized).1 _ _
    (upsertAlias st m.entityType canonical.id m.mentionText m.mentionNormalized).2 _
    fid m canonical.id canonical.canonicalText canonical.canonicalNormalized hu rfl
    (Prod.mk.eta.symm)
  obtain ⟨hcanon, hnextCanon, hlinks, hfiles, ⟨tailL, hlegacy⟩, hmid, hmentions,
    ⟨tailA, haliases, htailA⟩, hreg, hnodup, ⟨lrow, hlmem, hlid, hlty, hlnorm⟩⟩ := chain
  simp only [mergeBranch]
  refine ⟨by rw [hmid], hcanon, hlinks, hreg, ?_, ?_⟩
  · exact ⟨_, hmentions, rfl, rfl, rfl⟩
  · refine ⟨?_, ?_, ?_, ?_, ?_⟩
    · rw [hcanon]
      exact h1
    · rw [hcanon, hnextCanon]
      exact h2
    · rw [hcanon, haliases]
      intro a ha
      rcases List.mem_append.mp ha with ha2 | ha2
      · exact h3 a ha2
      · obtain ⟨hc, hth, _⟩ := htailA a ha2
        exact ⟨canonical, he, hc.symm, hth ▸ hty⟩
    · exact hnodup h4
    · rw [hmentions, hlegacy, hcanon]
      intro mr hmr
      rcases List.mem_append.mp hmr with hmr2 | hmr2
      · obtain ⟨l, hlm, hid, e, hem, heid, hlety, hlen⟩ := h5 mr hmr2
        exact ⟨l, List.mem_append_left tailL hlm, hid, e, hem, heid, hlety, hlen⟩
      · rw [List.mem_singleton.mp hmr2]
        refine ⟨lrow, ?_, hlid, canonical, he, rfl, ?_, hlnorm⟩
        · rw [← hlegacy]
          exact hlmem
        · rw [hlty, hty]

/-- The brand-new canonical entity written by the create and ambiguous
branches. -/
def canonRowWritten (st : Store) (m : MentionRow) (metaUnresolved : Bool)
    (metaReason : Option String) : CanonicalEntity :=
  ⟨st.nextCanonId, m.entityType, m.mentionText, m.mentionNormalized, metaUnresolved, metaReason⟩

/-- The create branch: one canonical entity is appended, carrying the
mention text as canonical text; the normalized text and fingerprints are
registered for it; the mention row points at it; the invariant is
preserved. -/
theorem createBranch_spec (st : Store) (fid : Nat) (m : MentionRow) (hInv : Inv st) :
    (createBranch st fid m).2 = Outcome.createdNew st.nextCanonId st.nextMentionId ∧
      (createBranch st fid m).1.canon = st.canon ++ [canonRowWritten st m false none] ∧
      (createBranch st fid m).1.links = st.links ∧
      (∀ s ∈ m.mentionNormalized :: buildKeyFingerprints m.entityType m.mentionText,
        ∃ a ∈ (createBranch st fid m).1.aliases,
          a.canonicalEntityId = st.nextCanonId ∧ a.aliasNormalized = s) ∧
      (∃ row, (createBranch st fid m).1.mentions = st.mentions ++ [row] ∧
        row.canonicalEntityId = st.nextCanonId ∧ row.id = st.nextMentionId ∧
        row.mentionNormalized = m.mentionNormalized) ∧
      Inv (createBranch st fid m).1 := by
  obtain ⟨h1, h2, h3, h4, h5⟩ := hInv
  have hu : upsertAlias (canonCreate st m.entityType m.mentionText m.mentionNormalized
      false none).1 m.entityType
      (canonCreate st m.entityType m.mentionText m.mentionNormalized false none).2.id
      m.mentionText m.mentionNormalized =
      ((upsertAlias (canonCreate st m.entityType m.mentionText m.mentionNormalized
          false none).1 m.entityType
          (canonCreate st m.entityType m.mentionText m.mentionNormalized false none).2.id
          m.mentionText m.mentionNormalized).1,
        (upsertAlias (canonCreate st m.entityType m.mentionText m.mentionNormalized
          false none).1 m.entityType
          (canonCreate st m.entityType m.mentionText m.mentionNormalized false none).2.id
          m.mentionText m.mentionNormalized).2) := rfl
  have chain := chain_spec
    (canonCreate st m.entityType m.mentionText m.mentionNormalized false none).1
    (upsertAlias (canonCreate st m.entityType m.mentionText m.mentionNormalized
      false none).1 m.entityType
      (canonCreate st m.entityType m.mentionText m.mentionNormalized false none).2.id
      m.mentionText m.mentionNormalized).1 _ _
    (upsertAlias (canonCreate st m.entityType m.mentionText m.mentionNormalized
      false none).1 m.entityType
      (canonCreate st m.entityType m.mentionText m.mentionNormalized false none).2.id
      m.mentionText m.mentionNormalized).2 _
    fid m (canonCreate st m.entityType m.mentionText m.mentionNormalized false none).2.id
    (canonCreate st m.entityType m.mentionText m.mentionNormalized false none).2.canonicalText
    (canonCreate st m.entityType m.mentionText m.mentionNormalized
      false none).2.canonicalNormalized
    hu rfl (Prod.mk.eta.symm)
  obtain ⟨hcanon, hnextCanon, hlinks, hfiles, ⟨tailL, hlegacy⟩, hmid, hmentions,
    ⟨tailA, haliases, htailA⟩, hreg, hnodup, ⟨lrow, hlmem, hlid, hlty, hlnorm⟩⟩ := chain
  have hccCanon : (canonCreate st m.entityType m.mentionText m.mentionNormalized
      false none).1.canon = st.canon ++ [canonRowWritten st m false none] := rfl
  have hccId : (canonCreate st m.entityType m.mentionText m.mentionNormalized
      false none).2.id = st.nextCanonId := rfl
  have hccNext : (canonCreate st m.entityType m.mentionText m.mentionNormalized
      false none).1.nextCanonId = st.nextCanonId + 1 := rfl
  rw [hccCanon] at hcanon
  clear hccId
  simp only [createBranch]
  refine ⟨by rw [hmid]; rfl, hcanon, hlinks, hreg, ?_, ?_⟩
  · exact ⟨_, hmentions, rfl, rfl, rfl⟩
  · refine ⟨?_, ?_, ?_, ?_, ?_⟩
    · rw [hcanon]
      rw [List.pairwise_append]
      refine ⟨h1, List.pairwise_singleton _ _, fun a ha b hb => ?_⟩
      rw [List.mem_singleton.mp hb]
      exact Nat.ne_of_lt (h2 a ha)
    · rw [hcanon, hnextCanon, hccNext]
      intro e hee
      rcases List.mem_append.mp hee with he2 | he2
      · exact Nat.lt_trans (h2 e he2) (Nat.lt_succ_self _)
      · rw [List.mem_singleton.mp he2]
        exact Nat.lt_succ_self _
    · rw [hcanon, haliases]
      intro a ha
      rcases List.mem_append.mp ha with ha2 | ha2
      · have ha3 : a ∈ st.aliases := ha2
        obtain ⟨e, hem, hprop⟩ := h3 a ha3
        exact ⟨e, List.mem_append_left _ hem, hprop⟩
      · obtain ⟨hc, hth, _⟩ := htailA a ha2
        exact ⟨canonRowWritten st m false none,
          List.mem_append_right _ (List.mem_singleton_self _), hc.symm, hth ▸ rfl⟩
    · exact hnodup h4
    · rw [hmentions, hlegacy, hcanon]
      intro mr hmr
      rcases List.mem_append.mp hmr with hmr2 | hmr2
      · have hmr3 : mr ∈ st.mentions := hmr2
        obtain ⟨l, hlm, hid, e, hem, heid, hlety, hlen⟩ := h5 mr hmr3
        refine ⟨l, ?_, hid, e, List.mem_append_left _ hem, heid, hlety, hlen⟩
        have : l ∈ st.legacy := hlm
        exact List.mem_append_left tailL this
      · rw [List.mem_singleton.mp hmr2]
        refine ⟨lrow, ?_, hlid, canonRowWritten st m false none,
          List.mem_append_right _ (List.mem_singleton_self _), rfl, ?_, ?_⟩
        · rw [← hlegacy]
          exact hlmem
        · rw [hlty]
          rfl
        · rw [hlnorm]
          rfl

/-- A successful candidate-link loop only appends link rows. -/
theorem createLinks_ok (mid : Nat) : ∀ (cands : List AliasCandidate) (st st2 : Store),
    createLinks mid st cands = Except.ok st2 →
    st2.canon = st.canon ∧ st2.aliases = st.aliases ∧ st2.legacy = st.legacy ∧
      st2.mentions = st.mentions ∧ st2.files = st.files ∧
      st2.nextCanonId = st.nextCanonId ∧ ∃ tailK, st2.links = st.links ++ tailK
  | [], st, st2, h => by
    rw [createLinks] at h
    cases h
    exact ⟨rfl, rfl, rfl, rfl, rfl, rfl, [], by simp⟩
  | c :: cs, st, st2, h => by
    rw [createLinks] at h
    unfold linkCreate at h
    by_cases hdup : st.links.any (fun l =>
        l.mentionId == mid && l.candidateCanonicalEntityId == c.canonicalEntityId)
    · rw [if_pos hdup] at h
      cases h
    · rw [if_neg hdup] at h
      obtain ⟨hc, ha, hl, hm, hf, hn, tailK, hlinks⟩ := createLinks_ok mid cs _ st2 h
      refine ⟨hc, ha, hl, hm, hf, hn,
        ⟨mid, c.canonicalEntityId, c.score, linkReasonOf c.reason, ("PENDING")⟩ :: tailK, ?_⟩
      rw [hlinks]
      simp

/-- The invariant only looks at the canonical, alias, legacy and mention
tables and the canonical id counter. -/
theorem inv_of_fields (st st2 : Store) (hc : st2.canon = st.canon)
    (hn : st2.nextCanonId = st.nextCanonId) (ha : st2.aliases = st.aliases)
    (hm : st2.mentions = st.mentions) (hl : st2.legacy = st.legacy) (h : Inv st) :
    Inv st2 := by
  unfold Inv at *
  rw [hc, hn, ha, hm, hl]
  exact h

/-- The ambiguous branch, when the candidate links all insert: a placeholder
canonical entity tagged unresolved/ambiguous_alias_match is appended, the
mention resolves to it, its text and fingerprints are registered as its
aliases, and the invariant is preserved. -/
theorem ambiguousBranch_spec (st : Store) (fid : Nat) (m : MentionRow)
    (cands : List AliasCandidate) (hInv : Inv st) (st6 : Store) (o : Outcome)
    (h : ambiguousBranch st fid m cands = Except.ok (st6, o)) :
    o = Outcome.ambiguousNew st.nextCanonId st.nextMentionId ∧
      st6.canon = st.canon ++
        [canonRowWritten st m true (some ("ambiguous_alias_match"))] ∧
      (∃ row, st6.mentions = st.mentions ++ [row] ∧
        row.canonicalEntityId = st.nextCanonId ∧ row.id = st.nextMentionId ∧
        row.mentionNormalized = m.mentionNormalized) ∧
      (∀ s ∈ m.mentionNormalized :: buildKeyFingerprints m.entityType m.mentionText,
        ∃ a ∈ st6.aliases, a.canonicalEntityId = st.nextCanonId ∧ a.aliasNormalized = s) ∧
      Inv st6 := by
  obtain ⟨h1, h2, h3, h4, h5⟩ := hInv
  have hu : upsertAlias (canonCreate st m.entityType m.mentionText m.mentionNormalized
      true (some ("ambiguous_alias_match"))).1 m.entityType
      (canonCreate st m.entityType m.mentionText m.mentionNormalized
        true (some ("ambiguous_alias_match"))).2.id
      m.mentionText m.mentionNormalized =
      ((upsertAlias (canonCreate st m.entityType m.mentionText m.mentionNormalized
          true (some ("ambiguous_alias_match"))).1 m.entityType
          (canonCreate st m.entityType m.mentionText m.mentionNormalized
            true (some ("ambiguous_alias_match"))).2.id
          m.mentionText m.mentionNormalized).1,
        (upsertAlias (canonCreate st m.entityType m.mentionText m.mentionNormalized
          true (some ("ambiguous_alias_match"))).1 m.entityType
          (canonCreate st m.entityType m.mentionText m.mentionNormalized
            true (some ("ambiguous_alias_match"))).2.id
          m.mentionText m.mentionNormalized).2) := rfl
  have chain := chain_spec
    (canonCreate st m.entityType m.mentionText m.mentionNormalized
      true (some ("ambiguous_alias_match"))).1
    (upsertAlias (canonCreate st m.entityType m.mentionText m.mentionNormalized
      true (some ("ambiguous_alias_match"))).1 m.entityType
      (canonCreate st m.entityType m.mentionText m.mentionNormalized
        true (some ("ambiguous_alias_match"))).2.id
      m.mentionText m.mentionNormalized).1 _ _
    (upsertAlias (canonCreate st m.entityType m.mentionText m.mentionNormalized
      true (some ("ambiguous_alias_match"))).1 m.entityType
      (canonCreate st m.entityType m.mentionText m.mentionNormalized
        true (some ("ambiguous_alias_match"))).2.id
      m.mentionText m.mentionNormalized).2 _
    fid m (canonCreate st m.entityType m.mentionText m.mentionNormalized
      true (some ("ambiguous_alias_match"))).2.id
    (canonCreate st m.entityType m.mentionText m.mentionNormalized
      true (some ("ambiguous_alias_match"))).2.canonicalText
    (canonCreate st m.entityType m.mentionText m.mentionNormalized
      true (some ("ambiguous_alias_match"))).2.canonicalNormalized
    hu rfl (Prod.mk.eta.symm)
  obtain ⟨hcanon, hnextCanon, hlinks, hfiles, ⟨tailL, hlegacy⟩, hmid, hmentions,
    ⟨tailA, haliases, htailA⟩, hreg, hnodup, ⟨lrow, hlmem, hlid, hlty, hlnorm⟩⟩ := chain
  have hccCanon : (canonCreate st m.entityType m.mentionText m.mentionNormalized
      true (some ("ambiguous_alias_match"))).1.canon =
      st.canon ++ [canonRowWritten st m true (some ("ambiguous_alias_match"))] := rfl
  rw [hccCanon] at hcanon
  have hinvY : Inv (mentionCreate
      (legacyFindOrCreate
        (upsertAliasList
          (upsertAlias (canonCreate st m.entityType m.mentionText m.mentionNormalized
            true (some ("ambiguous_alias_match"))).1 m.entityType
            (canonCreate st m.entityType m.mentionText m.mentionNormalized
              true (some ("ambiguous_alias_match"))).2.id
            m.mentionText m.mentionNormalized).1
          m.entityType
          (canonCreate st m.entityType m.mentionText m.mentionNormalized
            true (some ("ambiguous_alias_match"))).2.id
          m.mentionText (buildKeyFingerprints m.entityType m.mentionText))
        m.entityType
        (canonCreate st m.entityType m.mentionText m.mentionNormalized
          true (some ("ambiguous_alias_match"))).2.canonicalText
        (canonCreate st m.entityType m.mentionText m.mentionNormalized
          true (some ("ambiguous_alias_match"))).2.canonicalNormalized).1
      fid
      (legacyFindOrCreate
        (upsertAliasList
          (upsertAlias (canonCreate st m.entityType m.mentionText m.mentionNormalized
            true (some ("ambiguous_alias_match"))).1 m.entityType
            (canonCreate st m.entityType m.mentionText m.mentionNormalized
              true (some ("ambiguous_alias_match"))).2.id
            m.mentionText m.mentionNormalized).1
          m.entityType
          (canonCreate st m.entityType m.mentionText m.mentionNormalized
            true (some ("ambiguous_alias_match"))).2.id
          m.mentionText (buildKeyFingerprints m.entityType m.mentionText))
        m.entityType
        (canonCreate st m.entityType m.mentionText m.mentionNormalized
          true (some ("ambiguous_alias_match"))).2.canonicalText
        (canonCreate st m.entityType m.mentionText m.mentionNormalized
          true (some ("ambiguous_alias_match"))).2.canonicalNormalized).2
      (canonCreate st m.entityType m.mentionText m.mentionNormalized
        true (some ("ambiguous_alias_match"))).2.id
      (upsertAlias (canonCreate st m.entityType m.mentionText m.mentionNormalized
        true (some ("ambiguous_alias_match"))).1 m.entityType
        (canonCreate st m.entityType m.mentionText m.mentionNormalized
          true (some ("ambiguous_alias_match"))).2.id
        m.mentionText m.mentionNormalized).2
      m).1 := by
    refine ⟨?_, ?_, ?_, ?_, ?_⟩
    · rw [hcanon]
      rw [List.pairwise_append]
      refine ⟨h1, List.pairwise_singleton _ _, fun a ha b hb => ?_⟩
      rw [List.mem_singleton.mp hb]
      exact Nat.ne_of_lt (h2 a ha)
    · rw [hcanon, hnextCanon]
      intro e hee
      rcases List.mem_append.mp hee with he2 | he2
      · exact Nat.lt_trans (h2 e he2) (Nat.lt_succ_self _)
      · rw [List.mem_singleton.mp he2]
        exact Nat.lt_succ_self _
    · rw [hcanon, haliases]
      intro a ha
      rcases List.mem_append.mp ha with ha2 | ha2
      · have ha3 : a ∈ st.aliases := ha2
        obtain ⟨e, hem, hprop⟩ := h3 a ha3
        exact ⟨e, List.mem_append_left _ hem, hprop⟩
      · obtain ⟨hc, hth, _⟩ := htailA a ha2
        exact ⟨canonRowWritten st m true (some ("ambiguous_alias_match")),
          List.mem_append_right _ (List.mem_singleton_self _), hc.symm, hth ▸ rfl⟩
    · exact hnodup h4
    · rw [hmentions, hlegacy, hcanon]
      intro mr hmr
      rcases List.mem_append.mp hmr with hmr2 | hmr2
      · have hmr3 : mr ∈ st.mentions := hmr2
        obtain ⟨l, hlm, hid, e, hem, heid, hlety, hlen⟩ := h5 mr hmr3
        refine ⟨l, ?_, hid, e, List.mem_append_left _ hem, heid, hlety, hlen⟩
        have hlm2 : l ∈ st.legacy := hlm
        exact List.mem_append_left tailL hlm2
      · rw [List.mem_singleton.mp hmr2]
        refine ⟨lrow, ?_, hlid, canonRowWritten st m true (some ("ambiguous_alias_match")),
          List.mem_append_right _ (List.mem_singleton_self _), rfl, ?_, ?_⟩
        · rw [← hlegacy]
          exact hlmem
        · rw [hlty]
          rfl
        · rw [hlnorm]
          rfl
  simp only [ambiguousBranch] at h
  split at h
  · cases h
  · rename_i st7 heq
    have h9 := h
    simp only [Except.ok.injEq, Prod.mk.injEq] at h9
    obtain ⟨rfl, rfl⟩ := h9
    obtain ⟨hc7, ha7, hl7, hm7, hf7, hn7, tailK, hk7⟩ := createLinks_ok _ cands _ st7 heq
    refine ⟨?_, ?_, ?_, ?_, ?_⟩
    · rw [hmid]
      rfl
    · rw [hc7, hcanon]
    · have hm8 := hm7.trans hmentions
      exact ⟨_, hm8, rfl, rfl, rfl⟩
    · intro s hs
      obtain ⟨a, ham, hprop⟩ := hreg s hs
      rw [ha7]
      exact ⟨a, ham, hprop⟩
    · exact inv_of_fields _ st7 hc7 hn7 ha7 hm7 hl7 hinvY

/-! ## Candidate soundness -/

/-- Candidates produced by the collecting loop come from the rows and carry
the loop's tag and score. -/
theorem collectCands_mem (tag : Reason) (score : ℚ) :
    ∀ (seen : List SeenKey) (rows : List EntityAlias) (c : AliasCandidate),
    c ∈ (collectCands tag score seen rows).1 →
    ∃ row ∈ rows, c = ⟨row.id, row.canonicalEntityId, tag, score⟩
  | _, [], _, hc => by simp [collectCands] at hc
  | seen, row :: rows, c, hc => by
    rw [collectCands] at hc
    by_cases h : (row.canonicalEntityId, tag) ∈ seen
    · rw [if_pos h] at hc
      obtain ⟨r2, hr2, he⟩ := collectCands_mem tag score seen rows c hc
      exact ⟨r2, List.mem_cons_of_mem row hr2, he⟩
    · rw [if_neg h] at hc
      rcases List.mem_cons.mp hc with rfl | hc2
      · exact ⟨row, List.mem_cons_self row rows, rfl⟩
      · obtain ⟨r2, hr2, he⟩ :=
          collectCands_mem tag score ((row.canonicalEntityId, tag) :: seen) rows c hc2
        exact ⟨r2, List.mem_cons_of_mem row hr2, he⟩

/-- Every candidate of the matcher is backed by an alias row of the
mention's entity type; an exact candidate's alias row carries the mention's
normalized text. -/
theorem cand_source (st : Store) (t n : String) (ty : EntityType) :
    ∀ c ∈ findAliasCandidates st t n ty,
    ∃ a ∈ st.aliases, a.entityType = ty ∧ a.canonicalEntityId = c.canonicalEntityId ∧
      (c.reason = Reason.exact → a.aliasNormalized = n) := by
  intro c hc
  have fromExact : c ∈ (collectCands Reason.exact 1 [] ((st.aliases.filter (fun a =>
      a.entityType == ty && a.aliasNormalized == n)).take 20)).1 →
      ∃ a ∈ st.aliases, a.entityType = ty ∧ a.canonicalEntityId = c.canonicalEntityId ∧
        (c.reason = Reason.exact → a.aliasNormalized = n) := by
    intro hmem
    obtain ⟨row, hrow, he⟩ := collectCands_mem Reason.exact 1 [] _ c hmem
    have hrow2 := List.mem_filter.mp ((List.take_subset 20 _) hrow)
    simp only [Bool.and_eq_true, beq_iff_eq] at hrow2
    exact ⟨row, hrow2.1, hrow2.2.1, by rw [he], fun _ => hrow2.2.2⟩
  have fromKey : ∀ key seen, c ∈ (collectCands Reason.keyFp (6 / 10) seen
      ((st.aliases.filter (fun a =>
        a.entityType == ty && a.aliasNormalized == key)).take 20)).1 →
      ∃ a ∈ st.aliases, a.entityType = ty ∧ a.canonicalEntityId = c.canonicalEntityId ∧
        (c.reason = Reason.exact → a.aliasNormalized = n) := by
    intro key seen hmem
    obtain ⟨row, hrow, he⟩ := collectCands_mem Reason.keyFp (6 / 10) seen _ c hmem
    have hrow2 := List.mem_filter.mp ((List.take_subset 20 _) hrow)
    simp only [Bool.and_eq_true, beq_iff_eq] at hrow2
    refine ⟨row, hrow2.1, hrow2.2.1, by rw [he], fun hre => ?_⟩
    rw [he] at hre
    cases hre
  simp only [findAliasCandidates] at hc
  by_cases hty : ty = EntityType.PERSON ∨ ty = EntityType.ORGANIZATION
  · rw [if_pos hty] at hc
    split at hc
    · rename_i key hkf
      by_cases hne : key ≠ n
      · rw [if_pos hne] at hc
        rcases List.mem_append.mp hc with hc2 | hc2
        · exact fromExact hc2
        · exact fromKey key _ hc2
      · rw [if_neg hne] at hc
        exact fromExact hc
    · exact fromExact hc
  · rw [if_neg hty] at hc
    exact fromExact hc

/-- Elements survive deduplication only if present in the input. -/
theorem dedupeNats_mem : ∀ (seen xs : List Nat) (x : Nat),
    x ∈ dedupeNats seen xs → x ∈ xs
  | _, [], _, hx => by simp [dedupeNats] at hx
  | seen, y :: ys, x, hx => by
    rw [dedupeNats] at hx
    by_cases h : y ∈ seen
    · rw [if_pos h] at hx
      exact List.mem_cons_of_mem y (dedupeNats_mem seen ys x hx)
    · rw [if_neg h] at hx
      rcases List.mem_cons.mp hx with rfl | hx2
      · exact List.mem_cons_self x ys
      · exact List.mem_cons_of_mem y (dedupeNats_mem (y :: seen) ys x hx2)

/-- Members of the exact canonical set come from exact candidates. -/
theorem exactSet_mem (cands : List AliasCandidate) (cid : Nat)
    (h : cid ∈ exactSetOf cands) :
    ∃ c ∈ cands, c.reason = Reason.exact ∧ c.canonicalEntityId = cid := by
  have h2 := dedupeNats_mem [] _ cid h
  obtain ⟨c, hc, he⟩ := List.mem_map.mp h2
  have hc2 := List.mem_filter.mp hc
  simp only [beq_iff_eq] at hc2
  exact ⟨c, hc2.1, hc2.2, he⟩

/-- Members of the fingerprint canonical set come from fingerprint
candidates. -/
theorem keySet_mem (cands : List AliasCandidate) (cid : Nat)
    (h : cid ∈ keySetOf cands) :
    ∃ c ∈ cands, c.reason = Reason.keyFp ∧ c.canonicalEntityId = cid := by
  have h2 := dedupeNats_mem [] _ cid h
  obtain ⟨c, hc, he⟩ := List.mem_map.mp h2
  have hc2 := List.mem_filter.mp hc
  simp only [beq_iff_eq] at hc2
  exact ⟨c, hc2.1, hc2.2, he⟩

/-- On an id-unique list, find? by id returns exactly the member with that
id. -/
theorem find_by_id : ∀ (l : List CanonicalEntity) (e : CanonicalEntity) (cid : Nat),
    l.Pairwise (fun a b => a.id ≠ b.id) → e ∈ l → e.id = cid →
    l.find? (fun x => x.id == cid) = some e
  | [], e, cid, _, he, _ => absurd he (List.not_mem_nil e)
  | d :: ds, e, cid, hp, he, hid => by
    rcases List.pairwise_cons.mp hp with ⟨hd, hp2⟩
    by_cases h : d.id = cid
    · rw [List.find?_cons_of_pos ds (by simp [h])]
      rcases List.mem_cons.mp he with rfl | he2
      · rfl
      · exact absurd (hid ▸ h) (hd e he2)
    · rw [List.find?_cons_of_neg ds (by simp [h])]
      rcases List.mem_cons.mp he with rfl | he2
      · exact absurd hid h
      · exact find_by_id ds e cid hp2 he2 hid

/-- Under the invariant, a canonical id drawn from the candidate sets always
resolves by find? to an entity of the mention's type. -/
theorem chosen_sound (st : Store) (t n : String) (ty : EntityType) (cid : Nat)
    (hInv : Inv st)
    (hcid : cid ∈ exactSetOf (findAliasCandidates st t n ty) ∨
      cid ∈ keySetOf (findAliasCandidates st t n ty)) :
    ∃ canonical, st.canon.find? (fun e => e.id == cid) = some canonical ∧
      canonical ∈ st.canon ∧ canonical.id = cid ∧ canonical.entityType = ty := by
  obtain ⟨h1, _, h3, _, _⟩ := hInv
  have hcand : ∃ c ∈ findAliasCandidates st t n ty, c.canonicalEntityId = cid := by
    rcases hcid with h | h
    · obtain ⟨c, hc, _, he⟩ := exactSet_mem _ cid h
      exact ⟨c, hc, he⟩
    · obtain ⟨c, hc, _, he⟩ := keySet_mem _ cid h
      exact ⟨c, hc, he⟩
  obtain ⟨c, hc, he⟩ := hcand
  obtain ⟨a, ha, haty, haid, _⟩ := cand_source st t n ty c hc
  obtain ⟨e, hem, heid, hety⟩ := h3 a ha
  have heid2 : e.id = cid := by rw [heid, haid, he]
  exact ⟨e, find_by_id st.canon e cid h1 hem heid2, hem, heid2, by rw [hety, haty]⟩

/-! ## Dispatch equations of resolveMention -/

theorem resolveMention_ambiguous_eq (st : Store) (fid : Nat) (m : MentionRow)
    (h : 1 < (exactSetOf (findAliasCandidates st m.mentionText m.mentionNormalized
        m.entityType)).length ∨
      ((exactSetOf (findAliasCandidates st m.mentionText m.mentionNormalized
          m.entityType)).length = 0 ∧
        1 < (keySetOf (findAliasCandidates st m.mentionText m.mentionNormalized
          m.entityType)).length)) :
    resolveMention st fid m =
      ambiguousBranch st fid m
        (findAliasCandidates st m.mentionText m.mentionNormalized m.entityType) := by
  simp only [resolveMention]
  rw [if_pos h]

theorem resolveMention_create_eq (st : Store) (fid : Nat) (m : MentionRow)
    (hEx : exactSetOf (findAliasCandidates st m.mentionText m.mentionNormalized
      m.entityType) = [])
    (hKey : keySetOf (findAliasCandidates st m.mentionText m.mentionNormalized
      m.entityType) = []) :
    resolveMention st fid m = Except.ok (createBranch st fid m) := by
  simp only [resolveMention, hEx, hKey]
  norm_num

theorem resolveMention_merge_exact_eq (st : Store) (fid : Nat) (m : MentionRow)
    (cid : Nat) (canonical : CanonicalEntity)
    (hEx : exactSetOf (findAliasCandidates st m.mentionText m.mentionNormalized
      m.entityType) = [cid])
    (hfind : st.canon.find? (fun e => e.id == cid) = some canonical) :
    resolveMention st fid m = Except.ok (mergeBranch st fid m canonical) := by
  simp only [resolveMention, hEx, hfind]
  norm_num
  rw [hfind]

theorem resolveMention_merge_key_eq (st : Store) (fid : Nat) (m : MentionRow)
    (cid : Nat) (canonical : CanonicalEntity)
    (hEx : exactSetOf (findAliasCandidates st m.mentionText m.mentionNormalized
      m.entityType) = [])
    (hKey : keySetOf (findAliasCandidates st m.mentionText m.mentionNormalized
      m.entityType) = [cid])
    (hfind : st.canon.find? (fun e => e.id == cid) = some canonical) :
    resolveMention st fid m = Except.ok (mergeBranch st fid m canonical) := by
  simp only [resolveMention, hEx, hKey, hfind]
  norm_num
  rw [hfind]

/-- C1: the decision policy.  With exactSet and fingerprintSet the distinct
canonical ids among exact_alias and key_fingerprint candidates: a singleton
exactSet merges into its member; an empty exactSet with singleton
fingerprintSet merges into that member; more than one exact candidate, or no
exact and more than one fingerprint candidate, takes the ambiguous branch;
both empty creates a brand-new canonical entity whose canonical text is the
mention text.  In each merge and in the create branch the mention's
normalized text and all its fingerprints are registered as aliases of the
chosen or created entity. -/
theorem c1_resolution_policy (st : Store) (fid : Nat) (m : MentionRow) (hInv : Inv st) :
    (∀ cid, exactSetOf (findAliasCandidates st m.mentionText m.mentionNormalized
        m.entityType) = [cid] →
      ∃ st2 row, resolveMention st fid m =
          Except.ok (st2, Outcome.mergedInto cid st.nextMentionId) ∧
        st2.canon = st.canon ∧ st2.mentions = st.mentions ++ [row] ∧
        row.canonicalEntityId = cid ∧
        (∀ s ∈ m.mentionNormalized :: buildKeyFingerprints m.entityType m.mentionText,
          ∃ a ∈ st2.aliases, a.canonicalEntityId = cid ∧ a.aliasNormalized = s)) ∧
    (∀ cid, exactSetOf (findAliasCandidates st m.mentionText m.mentionNormalized
        m.entityType) = [] →
      keySetOf (findAliasCandidates st m.mentionText m.mentionNormalized
        m.entityType) = [cid] →
      ∃ st2 row, resolveMention st fid m =
          Except.ok (st2, Outcome.mergedInto cid st.nextMentionId) ∧
        st2.canon = st.canon ∧ st2.mentions = st.mentions ++ [row] ∧
        row.canonicalEntityId = cid ∧
        (∀ s ∈ m.mentionNormalized :: buildKeyFingerprints m.entityType m.mentionText,
          ∃ a ∈ st2.aliases, a.canonicalEntityId = cid ∧ a.aliasNormalized = s)) ∧
    ((1 < (exactSetOf (findAliasCandidates st m.mentionText m.mentionNormalized
          m.entityType)).length ∨
        ((exactSetOf (findAliasCandidates st m.mentionText m.mentionNormalized
            m.entityType)).length = 0 ∧
          1 < (keySetOf (findAliasCandidates st m.mentionText m.mentionNormalized
            m.entityType)).length)) →
      resolveMention st fid m =
        ambiguousBranch st fid m
          (findAliasCandidates st m.mentionText m.mentionNormalized m.entityType)) ∧
    (exactSetOf (findAliasCandidates st m.mentionText m.mentionNormalized
        m.entityType) = [] →
      keySetOf (findAliasCandidates st m.mentionText m.mentionNormalized
        m.entityType) = [] →
      ∃ st2 row, resolveMention st fid m =
          Except.ok (st2, Outcome.createdNew st.nextCanonId st.nextMentionId) ∧
        st2.canon = st.canon ++ [canonRowWritten st m false none] ∧
        st2.mentions = st.mentions ++ [row] ∧
        row.canonicalEntityId = st.nextCanonId ∧
        (∀ s ∈ m.mentionNormalized :: buildKeyFingerprints m.entityType m.mentionText,
          ∃ a ∈ st2.aliases, a.canonicalEntityId = st.nextCanonId ∧
            a.aliasNormalized = s)) := by
  refine ⟨?_, ?_, ?_, ?_⟩
  · intro cid hEx
    have hmemEx : cid ∈ exactSetOf (findAliasCandidates st m.mentionText
        m.mentionNormalized m.entityType) := by
      rw [hEx]
      exact List.mem_singleton_self cid
    obtain ⟨canonical, hfind, hmem, hid, htyp⟩ := chosen_sound st m.mentionText
      m.mentionNormalized m.entityType cid hInv (Or.inl hmemEx)
    have hres := resolveMention_merge_exact_eq st fid m cid canonical hEx hfind
    obtain ⟨hout, hcanon, hlinks, hreg, ⟨row, hrows, hrowc, hrowid, hrown⟩, hinv2⟩ :=
      mergeBranch_spec st fid m canonical hInv hmem htyp
    have hpair : mergeBranch st fid m canonical =
        ((mergeBranch st fid m canonical).1, Outcome.mergedInto cid st.nextMentionId) := by
      rw [← hid, ← hout]
    refine ⟨(mergeBranch st fid m canonical).1, row, ?_, hcanon, hrows,
      by rw [hrowc, hid], ?_⟩
    · rw [hres, hpair]
    · intro s hs
      obtain ⟨a, ham, ha1, ha2⟩ := hreg s hs
      exact ⟨a, ham, by rw [ha1, hid], ha2⟩
  · intro cid hEx hKey
    have hmemKey : cid ∈ keySetOf (findAliasCandidates st m.mentionText
        m.mentionNormalized m.entityType) := by
      rw [hKey]
      exact List.mem_singleton_self cid
    obtain ⟨canonical, hfind, hmem, hid, htyp⟩ := chosen_sound st m.mentionText
      m.mentionNormalized m.entityType cid hInv (Or.inr hmemKey)
    have hres := resolveMention_merge_key_eq st fid m cid canonical hEx hKey hfind
    obtain ⟨hout, hcanon, hlinks, hreg, ⟨row, hrows, hrowc, hrowid, hrown⟩, hinv2⟩ :=
      mergeBranch_spec st fid m canonical hInv hmem htyp
    have hpair : mergeBranch st fid m canonical =
        ((mergeBranch st fid m canonical).1, Outcome.mergedInto cid st.nextMentionId) := by
      rw [← hid, ← hout]
    refine ⟨(mergeBranch st fid m canonical).1, row, ?_, hcanon, hrows,
      by rw [hrowc, hid], ?_⟩
    · rw [hres, hpair]
    · intro s hs
      obtain ⟨a, ham, ha1, ha2⟩ := hreg s hs
      exact ⟨a, ham, by rw [ha1, hid], ha2⟩
  · exact resolveMention_ambiguous_eq st fid m
  · intro hEx hKey
    have hres := resolveMention_create_eq st fid m hEx hKey
    obtain ⟨hout, hcanon, hlinks, hreg, ⟨row, hrows, hrowc, hrowid, hrown⟩, hinv2⟩ :=
      createBranch_spec st fid m hInv
    have hpair : createBranch st fid m =
        ((createBranch st fid m).1,
          Outcome.createdNew st.nextCanonId st.nextMentionId) := by
      rw [← hout]
    exact ⟨(createBranch st fid m).1, row, by rw [hres, hpair], hcanon, hrows, hrowc, hreg⟩

/-- C1 witness: resolving a PERSON mention against the empty store has empty
candidate sets and creates a brand-new canonical entity. -/
theorem c1_resolution_policy_witness :
    Inv ⟨[], [], [], [], [], [⟨1, false⟩], 1, 1, 1, 1⟩ ∧
      ∃ st2 row,
        resolveMention ⟨[], [], [], [], [], [⟨1, false⟩], 1, 1, 1, 1⟩ 1
            ⟨"Jeffrey Epstein", EntityType.PERSON, "jeffrey epstein", none, ""⟩ =
          Except.ok (st2, Outcome.createdNew 1 1) ∧
        st2.canon = [] ++ [canonRowWritten ⟨[], [], [], [], [], [⟨1, false⟩], 1, 1, 1, 1⟩
          ⟨"Jeffrey Epstein", EntityType.PERSON, "jeffrey epstein", none, ""⟩ false none] ∧
        st2.mentions = [] ++ [row] ∧ row.canonicalEntityId = 1 ∧
        (∀ s ∈ ("jeffrey epstein" : String) :: buildKeyFingerprints EntityType.PERSON
            ("Jeffrey Epstein"),
          ∃ a ∈ st2.aliases, a.canonicalEntityId = 1 ∧ a.aliasNormalized = s) :=
  ⟨by decide,
    (c1_resolution_policy ⟨[], [], [], [], [], [⟨1, false⟩], 1, 1, 1, 1⟩ 1
      ⟨"Jeffrey Epstein", EntityType.PERSON, "jeffrey epstein", none, ""⟩
      (by decide)).2.2.2 (by decide) (by decide)⟩

theorem head?_mem : ∀ (l : List Nat) (x : Nat), l.head? = some x → x ∈ l
  | [], x, h => by simp at h
  | a :: as, x, h => by
    simp only [List.head?_cons, Option.some.injEq] at h
    rw [← h]
    exact List.mem_cons_self a as

/-- Any successful resolution preserves the invariant, only appends to the
canonical table, and resolves the mention to a canonical entity of the
mention's own entity type. -/
theorem resolve_ok_spec (st : Store) (fid : Nat) (m : MentionRow) (st2 : Store) (o : Outcome)
    (hInv : Inv st) (h : resolveMention st fid m = Except.ok (st2, o)) :
    Inv st2 ∧ (∃ tailC, st2.canon = st.canon ++ tailC) ∧
      (∀ cid, o.canonId? = some cid →
        ∃ e ∈ st2.canon, e.id = cid ∧ e.entityType = m.entityType) := by
  simp only [resolveMention] at h
  split at h
  · obtain ⟨ho, hcanon, hrow, hreg, hinv⟩ := ambiguousBranch_spec st fid m _ hInv st2 o h
    refine ⟨hinv, ⟨_, hcanon⟩, ?_⟩
    intro cid hcid
    rw [ho] at hcid
    simp only [Outcome.canonId?, Option.some.injEq] at hcid
    subst hcid
    exact ⟨canonRowWritten st m true (some ("ambiguous_alias_match")),
      by rw [hcanon]; exact List.mem_append_right _ (List.mem_singleton_self _), rfl, rfl⟩
  · rename_i hguard
    split at h
    · have h9 := h
      simp only [Except.ok.injEq] at h9
      have hst2 : (createBranch st fid m).1 = st2 := by rw [h9]
      have ho : (createBranch st fid m).2 = o := by rw [h9]
      obtain ⟨hout, hcanon, hlinks, hreg, hrowEx, hinv⟩ := createBranch_spec st fid m hInv
      rw [hst2] at hcanon hinv
      refine ⟨hinv, ⟨_, hcanon⟩, ?_⟩
      intro cid hcid
      rw [← ho, hout] at hcid
      simp only [Outcome.canonId?, Option.some.injEq] at hcid
      subst hcid
      exact ⟨canonRowWritten st m false none,
        by rw [hcanon]; exact List.mem_append_right _ (List.mem_singleton_self _), rfl, rfl⟩
    · rename_i cid heqChosen
      have hcidIn : cid ∈ exactSetOf (findAliasCandidates st m.mentionText
          m.mentionNormalized m.entityType) ∨
          cid ∈ keySetOf (findAliasCandidates st m.mentionText
            m.mentionNormalized m.entityType) := by
        by_cases h1 : (exactSetOf (findAliasCandidates st m.mentionText
            m.mentionNormalized m.entityType)).length = 1
        · rw [if_pos h1] at heqChosen
          exact Or.inl (head?_mem _ cid heqChosen)
        · rw [if_neg h1] at heqChosen
          by_cases h2 : (keySetOf (findAliasCandidates st m.mentionText
              m.mentionNormalized m.entityType)).length = 1
          · rw [if_pos h2] at heqChosen
            exact Or.inr (head?_mem _ cid heqChosen)
          · rw [if_neg h2] at heqChosen
            cases heqChosen
      obtain ⟨canonical2, hfind2, hmem2, hid2, hty2⟩ := chosen_sound st m.mentionText
        m.mentionNormalized m.entityType cid hInv hcidIn
      split at h
      · rename_i hfindNone
        rw [hfindNone] at hfind2
        cases hfind2
      · rename_i canonical hfindSome
        have hceq : canonical2 = canonical := by
          rw [hfindSome] at hfind2
          exact (Option.some.injEq _ _ ▸ hfind2).symm
        subst hceq
        have h9 := h
        simp only [Except.ok.injEq] at h9
        have hst2 : (mergeBranch st fid m canonical2).1 = st2 := by rw [h9]
        have ho : (mergeBranch st fid m canonical2).2 = o := by rw [h9]
        obtain ⟨hout, hcanon, hlinks, hreg, hrowEx, hinv⟩ :=
          mergeBranch_spec st fid m canonical2 hInv hmem2 hty2
        rw [hst2] at hcanon hinv
        refine ⟨hinv, ⟨[], by rw [hcanon, List.append_nil]⟩, ?_⟩
        intro cid2 hcid2
        rw [← ho, hout] at hcid2
        simp only [Outcome.canonId?, Option.some.injEq] at hcid2
        subst hcid2
        exact ⟨canonical2, by rw [hcanon]; exact hmem2, rfl, hty2⟩

/-! ## C8 -/

/-- C8: two successfully resolved mentions of different entity types never
share a canonical entity: candidate lookup filters aliases by the mention's
type and created entities record it, so each resolution lands on an entity
of its own type, and canonical ids are unique. -/
theorem c8_type_isolation (st st1 st2 : Store) (fid1 fid2 : Nat) (m1 m2 : MentionRow)
    (o1 o2 : Outcome) (c1 c2 : Nat) (hInv : Inv st)
    (h1 : resolveMention st fid1 m1 = Except.ok (st1, o1))
    (h2 : resolveMention st1 fid2 m2 = Except.ok (st2, o2))
    (hty : m1.entityType ≠ m2.entityType)
    (hc1 : o1.canonId? = some c1) (hc2 : o2.canonId? = some c2) : c1 ≠ c2 := by
  obtain ⟨hinv1, ⟨t1, hext1⟩, htype1⟩ := resolve_ok_spec st fid1 m1 st1 o1 hInv h1
  obtain ⟨hinv2, ⟨t2, hext2⟩, htype2⟩ := resolve_ok_spec st1 fid2 m2 st2 o2 hinv1 h2
  obtain ⟨e1, he1m, he1id, he1ty⟩ := htype1 c1 hc1
  obtain ⟨e2, he2m, he2id, he2ty⟩ := htype2 c2 hc2
  have he1m2 : e1 ∈ st2.canon := by
    rw [hext2]
    exact List.mem_append_left t2 he1m
  by_cases hee : e1 = e2
  · intro _
    apply hty
    rw [← he1ty, hee, he2ty]
  · have hsym : Symmetric (fun a b : CanonicalEntity => a.id ≠ b.id) :=
      fun _ _ hab heq => hab heq.symm
    have hne := List.Pairwise.forall hsym hinv2.1 he1m2 he2m hee
    intro hcc
    apply hne
    rw [he1id, he2id, hcc]

/-! ## Ingestion-level invariant preservation -/

theorem resolveAll_inv (fid : Nat) : ∀ (rows : List MentionRow) (st st2 : Store),
    Inv st → resolveAll fid st rows = Except.ok st2 → Inv st2
  | [], st, st2, hInv, h => by
    rw [resolveAll] at h
    cases h
    exact hInv
  | r :: rows, st, st2, hInv, h => by
    rw [resolveAll] at h
    split at h
    · cases h
    · rename_i p heq
      exact resolveAll_inv fid rows p.1 st2
        (resolve_ok_spec st fid r p.1 p.2 hInv (by rw [heq])).1 h

theorem fileMark_inv (st : Store) (fid : Nat) (hInv : Inv st) :
    Inv (fileMarkExtracted st fid) :=
  inv_of_fields st _ rfl rfl rfl rfl rfl hInv

theorem docTransaction_inv (st st2 : Store) (d : DocMentions) (hInv : Inv st)
    (h : docTransaction st d = Except.ok st2) : Inv st2 := by
  unfold docTransaction at h
  split at h
  · cases h
  · rename_i st3 heq
    cases h
    exact fileMark_inv st3 d.fileId (resolveAll_inv d.fileId _ st st3 hInv heq)

theorem ingestDocs_inv : ∀ (docs : List DocMentions) (st : Store),
    Inv st → Inv (ingestDocs st docs).1
  | [], st, hInv => hInv
  | d :: ds, st, hInv => by
    rw [ingestDocs]
    split
    · exact ingestDocs_inv ds st hInv
    · rename_i st1 heq
      exact ingestDocs_inv ds st1 (docTransaction_inv st st1 d hInv heq)

/-! ## C10 -/

/-- C10: after any ingestion run from a well-formed store, every mention row
references via entityId a legacy entity row whose entity type and normalized
text agree with the mention's canonical entity (getOrCreateLegacyEntityId is
keyed by exactly those fields inside the same transaction). -/
theorem c10_mention_legacy (st : Store) (docs : List DocMentions) (hInv : Inv st) :
    ∀ mr ∈ (ingestDocs st docs).1.mentions, ∃ l ∈ (ingestDocs st docs).1.legacy,
      l.id = mr.entityId ∧ ∃ e ∈ (ingestDocs st docs).1.canon,
        e.id = mr.canonicalEntityId ∧ l.entityType = e.entityType ∧
          l.normalizedText = e.canonicalNormalized :=
  (ingestDocs_inv docs st hInv).2.2.2.2

/-! ## C7 -/

/-- C7: per-document failure isolation.  If a document's transaction fails,
the run's final store is exactly the one obtained by processing the
remaining documents against the unchanged store (all of the document's
writes are rolled back, including the entitiesExtracted flag), the failed
tally grows by one, the processed tally is unchanged, and a failing single
document leaves the store untouched entirely. -/
theorem c7_failure_isolation (st : Store) (d : DocMentions) (ds : List DocMentions)
    (e : String) (h : docTransaction st d = Except.error e) :
    (ingestDocs st (d :: ds)).1 = (ingestDocs st ds).1 ∧
      (ingestDocs st (d :: ds)).2.1 = (ingestDocs st ds).2.1 ∧
      (ingestDocs st (d :: ds)).2.2 = (ingestDocs st ds).2.2 + 1 ∧
      ingestDocs st [d] = (st, 0, 1) := by
  have hstep : ingestDocs st (d :: ds) =
      ((ingestDocs st ds).1, (ingestDocs st ds).2.1, (ingestDocs st ds).2.2 + 1) := by
    rw [ingestDocs, h]
  have hone : ingestDocs st [d] = (st, 0, 1) := by
    rw [ingestDocs, h]
    rfl
  exact ⟨by rw [hstep], by rw [hstep], by rw [hstep], hone⟩

/-! ## Witnesses for C7, C8, C10 -/

/-- An empty store with one unprocessed file. -/
def emptyStore : Store := ⟨[], [], [], [], [], [⟨1, false⟩], 1, 1, 1, 1⟩

/-- The PERSON mention Paris. -/
def c8m1 : MentionRow := ⟨"Paris", EntityType.PERSON, "paris", none, ""⟩

/-- The LOCATION mention Paris. -/
def c8m2 : MentionRow := ⟨"Paris", EntityType.LOCATION, "paris", none, ""⟩

/-- The store after resolving the PERSON mention Paris on the empty store. -/
def c8St1 : Store :=
  match resolveMention emptyStore 1 c8m1 with
  | Except.ok p => p.1
  | Except.error _ => emptyStore

/-- The store after then resolving the LOCATION mention Paris. -/
def c8St2 : Store :=
  match resolveMention c8St1 1 c8m2 with
  | Except.ok p => p.1
  | Except.error _ => c8St1

/-- C8 witness: PERSON Paris creates entity 1, LOCATION Paris creates
entity 2; the theorem yields that the ids differ. -/
theorem c8_type_isolation_witness : (1 : Nat) ≠ 2 :=
  c8_type_isolation emptyStore c8St1 c8St2 1 1 c8m1 c8m2
    (Outcome.createdNew 1 1) (Outcome.createdNew 2 2) 1 2
    (by decide) (by decide) (by decide) (by decide) (by decide) (by decide)

/-- A one-document ingestion input. -/
def c10Docs : List DocMentions :=
  [⟨1, [⟨"Jeffrey Epstein", EntityType.PERSON, "jeffrey epstein", none, ""⟩]⟩]

/-- The mention row that ingestion writes for c10Docs. -/
def c10Row : EntityMention :=
  ⟨1, 1, 1, 1, 1, "Jeffrey Epstein", "jeffrey epstein", none, "", none, 1⟩

/-- C10 witness: the single ingested mention references legacy entity 1 with
the canonical entity's type and normalized text. -/
theorem c10_mention_legacy_witness :
    ∃ l ∈ (ingestDocs emptyStore c10Docs).1.legacy, l.id = c10Row.entityId ∧
      ∃ e ∈ (ingestDocs emptyStore c10Docs).1.canon,
        e.id = c10Row.canonicalEntityId ∧ l.entityType = e.entityType ∧
          l.normalizedText = e.canonicalNormalized :=
  c10_mention_legacy emptyStore c10Docs (by decide) c10Row (by decide)

/-- C7 witness: the duplicate-candidate document fails its transaction, and
running it as a whole ingestion leaves the store untouched with one failed
document. -/
theorem c7_failure_isolation_witness :
    docTransaction c4Store ⟨1, [c4Mention]⟩ = Except.error linkUniqueViolation ∧
      ingestDocs c4Store [⟨1, [c4Mention]⟩] = (c4Store, 0, 1) :=
  ⟨by decide,
    (c7_failure_isolation c4Store ⟨1, [c4Mention]⟩ [] linkUniqueViolation
      (by decide)).2.2.2⟩

/-! ## Deduplication helpers for the idempotence analysis -/

theorem dedupeNats_mem_or : ∀ (seen xs : List Nat) (x : Nat), x ∈ xs →
    x ∈ seen ∨ x ∈ dedupeNats seen xs
  | _, [], x, hx => absurd hx (List.not_mem_nil x)
  | seen, y :: ys, x, hx => by
    rw [dedupeNats]
    by_cases h : y ∈ seen
    · rw [if_pos h]
      rcases List.mem_cons.mp hx with rfl | hx2
      · exact Or.inl h
      · exact dedupeNats_mem_or seen ys x hx2
    · rw [if_neg h]
      rcases List.mem_cons.mp hx with rfl | hx2
      · exact Or.inr (List.mem_cons_self x _)
      · rcases dedupeNats_mem_or (y :: seen) ys x hx2 with h2 | h2
        · rcases List.mem_cons.mp h2 with rfl | h3
          · exact Or.inr (List.mem_cons_self x _)
          · exact Or.inl h3
        · exact Or.inr (List.mem_cons_of_mem y h2)

theorem dedupeNats_nil_of_sub : ∀ (seen xs : List Nat), (∀ x ∈ xs, x ∈ seen) →
    dedupeNats seen xs = []
  | _, [], _ => rfl
  | seen, y :: ys, h => by
    rw [dedupeNats, if_pos (h y (List.mem_cons_self y ys))]
    exact dedupeNats_nil_of_sub seen ys
      (fun x hx => h x (List.mem_cons_of_mem y hx))

theorem dedupeNats_single_of : ∀ (xs : List Nat) (c : Nat), xs ≠ [] →
    (∀ x ∈ xs, x = c) → dedupeNats [] xs = [c]
  | [], c, hne, _ => absurd rfl hne
  | y :: ys, c, _, hall => by
    have hy : y = c := hall y (List.mem_cons_self y ys)
    rw [dedupeNats, if_neg (List.not_mem_nil y), hy]
    rw [dedupeNats_nil_of_sub [c] ys (fun x hx => by
      rw [hall x (List.mem_cons_of_mem y hx)]
      exact List.mem_singleton_self c)]

theorem dedupeNats_single_dest (xs : List Nat) (c : Nat)
    (h : dedupeNats [] xs = [c]) : xs ≠ [] ∧ ∀ x ∈ xs, x = c := by
  constructor
  · intro he
    rw [he] at h
    simp [dedupeNats] at h
  · intro x hx
    rcases dedupeNats_mem_or [] xs x hx with h2 | h2
    · exact absurd h2 (List.not_mem_nil x)
    · rw [h] at h2
      exact List.mem_singleton.mp h2

theorem dedupeNats_not_seen : ∀ (seen xs : List Nat) (x : Nat),
    x ∈ dedupeNats seen xs → x ∉ seen
  | _, [], x, hx => by simp [dedupeNats] at hx
  | seen, y :: ys, x, hx => by
    rw [dedupeNats] at hx
    by_cases h : y ∈ seen
    · rw [if_pos h] at hx
      exact dedupeNats_not_seen seen ys x hx
    · rw [if_neg h] at hx
      rcases List.mem_cons.mp hx with rfl | hx2
      · exact h
      · intro hmem
        exact dedupeNats_not_seen (y :: seen) ys x hx2 (List.mem_cons_of_mem y hmem)

theorem dedupeNats_nodup : ∀ (seen xs : List Nat), (dedupeNats seen xs).Nodup
  | _, [] => List.nodup_nil
  | seen, y :: ys => by
    rw [dedupeNats]
    by_cases h : y ∈ seen
    · rw [if_pos h]
      exact dedupeNats_nodup seen ys
    · rw [if_neg h]
      refine List.nodup_cons.mpr ⟨?_, dedupeNats_nodup (y :: seen) ys⟩
      intro hmem
      exact dedupeNats_not_seen (y :: seen) ys y hmem (List.mem_cons_self y seen)

theorem dedupeNats_of_nodup : ∀ (seen xs : List Nat), xs.Nodup →
    (∀ x ∈ xs, x ∉ seen) → dedupeNats seen xs = xs
  | _, [], _, _ => rfl
  | seen, y :: ys, hnd, hno => by
    rw [dedupeNats, if_neg (hno y (List.mem_cons_self y ys))]
    rcases List.nodup_cons.mp hnd with ⟨hy, hnd2⟩
    rw [dedupeNats_of_nodup (y :: seen) ys hnd2 (fun x hx hmem => by
      rcases List.mem_cons.mp hmem with rfl | h2
      · exact hy hx
      · exact hno x (List.mem_cons_of_mem y hx) h2)]

theorem dedupeNats_idem (xs : List Nat) :
    dedupeNats [] (dedupeNats [] xs) = dedupeNats [] xs :=
  dedupeNats_of_nodup [] _ (dedupeNats_nodup [] xs)
    (fun x _ hmem => List.not_mem_nil x hmem)

/-- The collecting loop with a tag-homogeneous seen set behaves like plain
id deduplication on the ids. -/
theorem collect_ids (tag : Reason) (score : ℚ) :
    ∀ (seen : List SeenKey) (seenN : List Nat) (rows : List EntityAlias),
    (∀ cid, (cid, tag) ∈ seen ↔ cid ∈ seenN) →
    ((collectCands tag score seen rows).1.map (fun c => c.canonicalEntityId)) =
      dedupeNats seenN (rows.map (fun a => a.canonicalEntityId))
  | _, _, [], _ => by simp [collectCands, dedupeNats]
  | seen, seenN, row :: rows, hiff => by
    rw [collectCands]
    simp only [List.map_cons, dedupeNats]
    by_cases h : (row.canonicalEntityId, tag) ∈ seen
    · rw [if_pos h, if_pos ((hiff row.canonicalEntityId).mp h)]
      exact collect_ids tag score seen seenN rows hiff
    · rw [if_neg h, if_neg (fun hx => h ((hiff row.canonicalEntityId).mpr hx))]
      simp only [List.map_cons]
      rw [collect_ids tag score ((row.canonicalEntityId, tag) :: seen)
        (row.canonicalEntityId :: seenN) rows (fun cid => by
          constructor
          · intro hx
            rcases List.mem_cons.mp hx with hx2 | hx2
            · exact List.mem_cons.mpr (Or.inl (congrArg Prod.fst hx2))
            · exact List.mem_cons_of_mem _ ((hiff cid).mp hx2)
          · intro hx
            rcases List.mem_cons.mp hx with rfl | hx2
            · exact List.mem_cons_self _ _
            · exact List.mem_cons_of_mem _ ((hiff cid).mpr hx2))]

/-- Every candidate the collecting loop produces carries its tag. -/
theorem collect_reason (tag : Reason) (score : ℚ) (seen : List SeenKey)
    (rows : List EntityAlias) (c : AliasCandidate)
    (hc : c ∈ (collectCands tag score seen rows).1) : c.reason = tag := by
  obtain ⟨row, _, he⟩ := collectCands_mem tag score seen rows c hc
  rw [he]

/-- The exact-reason sublist of the matcher's output is exactly the exact
collecting loop's output. -/
theorem exact_filter_eq (st : Store) (t n : String) (ty : EntityType) :
    (findAliasCandidates st t n ty).filter (fun c => c.reason == Reason.exact) =
      (collectCands Reason.exact 1 [] ((st.aliases.filter (fun a =>
        a.entityType == ty && a.aliasNormalized == n)).take 20)).1 := by
  have hself : ∀ rows, (collectCands Reason.exact (1 : ℚ) [] rows).1.filter
      (fun c => c.reason == Reason.exact) = (collectCands Reason.exact 1 [] rows).1 :=
    fun rows => List.filter_eq_self.mpr (fun c hc => by
      rw [collect_reason Reason.exact 1 [] rows c hc]
      rfl)
  have hkeynil : ∀ key seen, ((collectCands Reason.keyFp ((6 : ℚ) / 10) seen
      ((st.aliases.filter (fun a => a.entityType == ty && a.aliasNormalized == key)).take
        20)).1).filter (fun c => c.reason == Reason.exact) = [] := by
    intro key seen
    rw [List.filter_eq_nil_iff]
    intro c hc
    rw [collect_reason Reason.keyFp (6 / 10) seen _ c hc]
    decide
  simp only [findAliasCandidates]
  by_cases hty : ty = EntityType.PERSON ∨ ty = EntityType.ORGANIZATION
  · rw [if_pos hty]
    split
    · rename_i key hkf
      by_cases hne : key ≠ n
      · rw [if_pos hne, List.filter_append, hself, hkeynil, List.append_nil]
      · rw [if_neg hne, hself]
    · rw [hself]
  · rw [if_neg hty, hself]

/-- The exact canonical set is the first-occurrence deduplication of the
owner ids of the first twenty exact-matching alias rows. -/
theorem exactSetOf_eq (st : Store) (t n : String) (ty : EntityType) :
    exactSetOf (findAliasCandidates st t n ty) =
      dedupeNats [] (((st.aliases.filter (fun a =>
        a.entityType == ty && a.aliasNormalized == n)).take 20).map
          (fun a => a.canonicalEntityId)) := by
  unfold exactSetOf
  rw [exact_filter_eq, collect_ids Reason.exact 1 [] [] _ (fun cid => by simp),
    dedupeNats_idem]

/-- Take-twenty-and-filter analysis: if the first twenty old matches
dedupe to the single owner cid, or there are no old matches but a new
matching row exists, and every appended row belongs to cid, then after
appending, the first twenty matches still dedupe to cid alone. -/
theorem exact_filter_extended (P : EntityAlias → Bool) (old tailA : List EntityAlias)
    (cid : Nat)
    (hOld : dedupeNats [] (((old.filter P).take 20).map (fun a => a.canonicalEntityId)) =
        [cid] ∨
      (old.filter P = [] ∧ ∃ a ∈ tailA, P a = true ∧ a.canonicalEntityId = cid))
    (hTail : ∀ a ∈ tailA, a.canonicalEntityId = cid) :
    dedupeNats [] ((((old ++ tailA).filter P).take 20).map
      (fun a => a.canonicalEntityId)) = [cid] := by
  rw [List.filter_append, List.take_append_eq_append_take, List.map_append]
  rcases hOld with hOld | ⟨hnil, a, hmem, hPa, hacid⟩
  · obtain ⟨hne, hall⟩ := dedupeNats_single_dest _ cid hOld
    apply dedupeNats_single_of
    · intro hcontra
      rw [List.append_eq_nil] at hcontra
      exact hne hcontra.1
    · intro x hx
      rcases List.mem_append.mp hx with hx2 | hx2
      · exact hall x hx2
      · obtain ⟨b, hb, he⟩ := List.mem_map.mp hx2
        rw [← he]
        exact hTail b (List.mem_filter.mp ((List.take_subset _ _) hb)).1
  · rw [hnil]
    simp only [List.take_nil, List.map_nil, List.nil_append, List.length_nil,
      Nat.sub_zero]
    apply dedupeNats_single_of
    · intro hcontra
      rw [List.map_eq_nil_iff, List.take_eq_nil_iff] at hcontra
      rcases hcontra with h20 | hfil
      · cases h20
      · rw [List.filter_eq_nil_iff] at hfil
        exact hfil a hmem hPa
    · intro x hx
      obtain ⟨b, hb, he⟩ := List.mem_map.mp hx
      rw [← he]
      exact hTail b (List.mem_filter.mp ((List.take_subset _ _) hb)).1

/-- Under the invariant, every alias of a canonical entity carries that
entity's type. -/
theorem alias_owner_type (st : Store) (hInv : Inv st) (e : CanonicalEntity)
    (hem : e ∈ st.canon) (a : EntityAlias) (ha : a ∈ st.aliases)
    (howner : a.canonicalEntityId = e.id) : a.entityType = e.entityType := by
  obtain ⟨h1, _, h3, _, _⟩ := hInv
  obtain ⟨e2, he2m, he2id, he2ty⟩ := h3 a ha
  have : e2 = e := by
    by_cases hee : e2 = e
    · exact hee
    · have hsym : Symmetric (fun a b : CanonicalEntity => a.id ≠ b.id) :=
        fun _ _ hab heq => hab heq.symm
      exact absurd (by rw [he2id, howner]) (List.Pairwise.forall hsym h1 he2m hem hee)
  rw [← he2ty, this]

/-- Under the invariant, no alias row belongs to the yet-unallocated next
canonical id. -/
theorem alias_fresh (st : Store) (hInv : Inv st) (a : EntityAlias)
    (ha : a ∈ st.aliases) : a.canonicalEntityId ≠ st.nextCanonId := by
  obtain ⟨_, h2, h3, _, _⟩ := hInv
  obtain ⟨e, hem, heid, _⟩ := h3 a ha
  rw [← heid]
  exact Nat.ne_of_lt (h2 e hem)

/-- upsertAlias is the identity when the pair is already registered. -/
theorem upsertAlias_noop (st : Store) (ty : EntityType) (cid : Nat) (t n : String)
    (h : ∃ a ∈ st.aliases, a.canonicalEntityId = cid ∧ a.aliasNormalized = n) :
    upsertAlias st ty cid t n = (st, (upsertAlias st ty cid t n).2) := by
  unfold upsertAlias
  cases hf : st.aliases.find? (fun a =>
      a.canonicalEntityId == cid && a.aliasNormalized == n) with
  | some a => rfl
  | none =>
    obtain ⟨a, ha, hprop⟩ := h
    have := List.find?_eq_none.mp hf a ha
    simp only [Bool.and_eq_true, beq_iff_eq] at this
    exact absurd ⟨hprop.1, hprop.2⟩ this

/-- The fingerprint loop is the identity when every form is registered. -/
theorem upsertAliasList_noop (ty : EntityType) (cid : Nat) (t : String) :
    ∀ (fps : List String) (st : Store),
    (∀ n ∈ fps, ∃ a ∈ st.aliases, a.canonicalEntityId = cid ∧ a.aliasNormalized = n) →
    upsertAliasList st ty cid t fps = st
  | [], _, _ => rfl
  | fp :: fps, st, h => by
    rw [upsertAliasList]
    have h1 := upsertAlias_noop st ty cid t fp (h fp (List.mem_cons_self fp fps))
    have h2 : (upsertAlias st ty cid t fp).1 = st := congrArg Prod.fst h1
    rw [h2]
    exact upsertAliasList_noop ty cid t fps st
      (fun n hn => h n (List.mem_cons_of_mem fp hn))

/-- The merge branch adds no alias rows when the mention's normalized text
and every fingerprint are already registered for the entity. -/
theorem mergeBranch_aliases_noop (st : Store) (fid : Nat) (m : MentionRow)
    (canonical : CanonicalEntity)
    (h : ∀ s ∈ m.mentionNormalized :: buildKeyFingerprints m.entityType m.mentionText,
      ∃ a ∈ st.aliases, a.canonicalEntityId = canonical.id ∧ a.aliasNormalized = s) :
    (mergeBranch st fid m canonical).1.aliases = st.aliases := by
  have h1 := upsertAlias_noop st m.entityType canonical.id m.mentionText
    m.mentionNormalized (h m.mentionNormalized (List.mem_cons_self _ _))
  have h2 : (upsertAlias st m.entityType canonical.id m.mentionText
      m.mentionNormalized).1 = st := congrArg Prod.fst h1
  have h3 := upsertAliasList_noop m.entityType canonical.id m.mentionText
    (buildKeyFingerprints m.entityType m.mentionText) st
    (fun n hn => h n (List.mem_cons_of_mem _ hn))
  simp only [mergeBranch]
  rw [h2, h3]
  exact (legacyFindOrCreate_untouched st m.entityType canonical.canonicalText
    canonical.canonicalNormalized).2.1

/-- The alias rows appended by the merge branch all belong to the merged
entity and carry the mention's type. -/
theorem mergeBranch_aliases_ext (st : Store) (fid : Nat) (m : MentionRow)
    (canonical : CanonicalEntity) :
    ∃ tailA, (mergeBranch st fid m canonical).1.aliases = st.aliases ++ tailA ∧
      ∀ a ∈ tailA, a.canonicalEntityId = canonical.id ∧ a.entityType = m.entityType := by
  have hu : upsertAlias st m.entityType canonical.id m.mentionText m.mentionNormalized =
      ((upsertAlias st m.entityType canonical.id m.mentionText m.mentionNormalized).1,
        (upsertAlias st m.entityType canonical.id m.mentionText m.mentionNormalized).2) :=
    rfl
  have chain := chain_spec st
    (upsertAlias st m.entityType canonical.id m.mentionText m.mentionNormalized).1 _ _
    (upsertAlias st m.entityType canonical.id m.mentionText m.mentionNormalized).2 _
    fid m canonical.id canonical.canonicalText canonical.canonicalNormalized hu rfl
    (Prod.mk.eta.symm)
  obtain ⟨_, _, _, _, _, _, _, ⟨tailA, haliases, htailA⟩, _, _, _⟩ := chain
  exact ⟨tailA, haliases, fun a ha => ⟨(htailA a ha).1, (htailA a ha).2.1⟩⟩

/-- The alias rows appended by the create branch all belong to the created
entity and carry the mention's type. -/
theorem createBranch_aliases_ext (st : Store) (fid : Nat) (m : MentionRow) :
    ∃ tailA, (createBranch st fid m).1.aliases = st.aliases ++ tailA ∧
      ∀ a ∈ tailA, a.canonicalEntityId = st.nextCanonId ∧
        a.entityType = m.entityType := by
  have hu : upsertAlias (canonCreate st m.entityType m.mentionText m.mentionNormalized
      false none).1 m.entityType
      (canonCreate st m.entityType m.mentionText m.mentionNormalized false none).2.id
      m.mentionText m.mentionNormalized =
      ((upsertAlias (canonCreate st m.entityType m.mentionText m.mentionNormalized
          false none).1 m.entityType
          (canonCreate st m.entityType m.mentionText m.mentionNormalized false none).2.id
          m.mentionText m.mentionNormalized).1,
        (upsertAlias (canonCreate st m.entityType m.mentionText m.mentionNormalized
          false none).1 m.entityType
          (canonCreate st m.entityType m.mentionText m.mentionNormalized false none).2.id
          m.mentionText m.mentionNormalized).2) := rfl
  have chain := chain_spec
    (canonCreate st m.entityType m.mentionText m.mentionNormalized false none).1
    (upsertAlias (canonCreate st m.entityType m.mentionText m.mentionNormalized
      false none).1 m.entityType
      (canonCreate st m.entityType m.mentionText m.mentionNormalized false none).2.id
      m.mentionText m.mentionNormalized).1 _ _
    (upsertAlias (canonCreate st m.entityType m.mentionText m.mentionNormalized
      false none).1 m.entityType
      (canonCreate st m.entityType m.mentionText m.mentionNormalized false none).2.id
      m.mentionText m.mentionNormalized).2 _
    fid m (canonCreate st m.entityType m.mentionText m.mentionNormalized false none).2.id
    (canonCreate st m.entityType m.mentionText m.mentionNormalized false none).2.canonicalText
    (canonCreate st m.entityType m.mentionText m.mentionNormalized
      false none).2.canonicalNormalized
    hu rfl (Prod.mk.eta.symm)
  obtain ⟨_, _, _, _, _, _, _, ⟨tailA, haliases, htailA⟩, _, _, _⟩ := chain
  exact ⟨tailA, haliases, fun a ha => ⟨(htailA a ha).1, (htailA a ha).2.1⟩⟩

/-- The alias rows appended by a successful ambiguous branch all belong to
the placeholder entity and carry the mention's type. -/
theorem ambiguousBranch_aliases_ext (st : Store) (fid : Nat) (m : MentionRow)
    (cands : List AliasCandidate) (st6 : Store) (o : Outcome)
    (h : ambiguousBranch st fid m cands = Except.ok (st6, o)) :
    ∃ tailA, st6.aliases = st.aliases ++ tailA ∧
      ∀ a ∈ tailA, a.canonicalEntityId = st.nextCanonId ∧
        a.entityType = m.entityType := by
  have hu : upsertAlias (canonCreate st m.entityType m.mentionText m.mentionNormalized
      true (some ("ambiguous_alias_match"))).1 m.entityType
      (canonCreate st m.entityType m.mentionText m.mentionNormalized
        true (some ("ambiguous_alias_match"))).2.id
      m.mentionText m.mentionNormalized =
      ((upsertAlias (canonCreate st m.entityType m.mentionText m.mentionNormalized
          true (some ("ambiguous_alias_match"))).1 m.entityType
          (canonCreate st m.entityType m.mentionText m.mentionNormalized
            true (some ("ambiguous_alias_match"))).2.id
          m.mentionText m.mentionNormalized).1,
        (upsertAlias (canonCreate st m.entityType m.mentionText m.mentionNormalized
          true (some ("ambiguous_alias_match"))).1 m.entityType
          (canonCreate st m.entityType m.mentionText m.mentionNormalized
            true (some ("ambiguous_alias_match"))).2.id
          m.mentionText m.mentionNormalized).2) := rfl
  have chain := chain_spec
    (canonCreate st m.entityType m.mentionText m.mentionNormalized
      true (some ("ambiguous_alias_match"))).1
    (upsertAlias (canonCreate st m.entityType m.mentionText m.mentionNormalized
      true (some ("ambiguous_alias_match"))).1 m.entityType
      (canonCreate st m.entityType m.mentionText m.mentionNormalized
        true (some ("ambiguous_alias_match"))).2.id
      m.mentionText m.mentionNormalized).1 _ _
    (upsertAlias (canonCreate st m.entityType m.mentionText m.mentionNormalized
      true (some ("ambiguous_alias_match"))).1 m.entityType
      (canonCreate st m.entityType m.mentionText m.mentionNormalized
        true (some ("ambiguous_alias_match"))).2.id
      m.mentionText m.mentionNormalized).2 _
    fid m (canonCreate st m.entityType m.mentionText m.mentionNormalized
      true (some ("ambiguous_alias_match"))).2.id
    (canonCreate st m.entityType m.mentionText m.mentionNormalized
      true (some ("ambiguous_alias_match"))).2.canonicalText
    (canonCreate st m.entityType m.mentionText m.mentionNormalized
      true (some ("ambiguous_alias_match"))).2.canonicalNormalized
    hu rfl (Prod.mk.eta.symm)
  obtain ⟨_, _, _, _, _, _, _, ⟨tailA, haliases, htailA⟩, _, _, _⟩ := chain
  simp only [ambiguousBranch] at h
  split at h
  · cases h
  · rename_i st7 heq
    have h9 := h
    simp only [Except.ok.injEq, Prod.mk.injEq] at h9
    obtain ⟨rfl, rfl⟩ := h9
    obtain ⟨_, ha7, _, _, _, _, _⟩ := createLinks_ok _ cands _ st7 heq
    refine ⟨tailA, ?_, fun a ha => ⟨(htailA a ha).1, (htailA a ha).2.1⟩⟩
    rw [ha7]
    exact haliases

theorem dedupeNats_nil_dest (xs : List Nat) (h : dedupeNats [] xs = []) : xs = [] := by
  cases xs with
  | nil => rfl
  | cons y ys =>
    rcases dedupeNats_mem_or [] (y :: ys) y (List.mem_cons_self y ys) with h2 | h2
    · exact absurd h2 (List.not_mem_nil y)
    · rw [h] at h2
      exact absurd h2 (List.not_mem_nil y)

/-- An empty exact canonical set means no alias row of the store matches the
normalized text at all. -/
theorem exact_filter_nil (st : Store) (t n : String) (ty : EntityType)
    (h : exactSetOf (findAliasCandidates st t n ty) = []) :
    st.aliases.filter (fun a => a.entityType == ty && a.aliasNormalized == n) = [] := by
  rw [exactSetOf_eq] at h
  have h2 := dedupeNats_nil_dest _ h
  rw [List.map_eq_nil_iff] at h2
  rcases List.take_eq_nil_iff.mp h2 with h3 | h3
  · cases h3
  · exact h3

theorem singleton_of_len_one_head (l : List Nat) (c : Nat) (hl : l.length = 1)
    (hh : l.head? = some c) : l = [c] := by
  obtain ⟨x, rfl⟩ := List.length_eq_one.mp hl
  simp only [List.head?_cons, Option.some.injEq] at hh
  rw [hh]

theorem head_ne_none (l : List Nat) (hl : l.length = 1) : l.head? ≠ none := by
  obtain ⟨x, rfl⟩ := List.length_eq_one.mp hl
  simp

/-- Resolve the same mention twice in a row and report the two canonical
entity ids the mention rows point at. -/
def resolveTwiceCanonIds (st : Store) (fileId : Nat) (m : MentionRow) : Option (Nat × Nat) :=
  match resolveMention st fileId m with
  | Except.error _ => none
  | Except.ok (st1, o1) =>
    match resolveMention st1 fileId m with
    | Except.error _ => none
    | Except.ok (_, o2) =>
      match o1.canonId?, o2.canonId? with
      | some a, some b => some (a, b)
      | _, _ => none

/-- C2 counterexample: with two entities both carrying the exact alias smith,
resolving the PERSON mention Smith is ambiguous and creates placeholder 3;
resolving it again against the store left behind finds three exact
candidates (the placeholder now also carries the alias) and creates a fresh
placeholder 4, so the two resolutions yield different canonical entity
ids. -/
theorem c2_counterexample_ambiguous_rerun :
    resolveTwiceCanonIds c2Store 1 c2Mention = some (3, 4) ∧ (3 : Nat) ≠ 4 := by
  refine ⟨by decide, by decide⟩

/-- C2 amended: when the first resolution of a (type, text) mention finds at
most one distinct exact-alias canonical id (every branch except ambiguity
with more than one exact candidate, so merge, create, and fingerprint-only
ambiguity), resolving the same mention again against the store it left
merges into the same canonical entity id and adds no alias row. -/
theorem c2_idempotent_unless_exact_ambiguous (st : Store) (fid1 fid2 : Nat)
    (m : MentionRow) (hInv : Inv st) (st1 : Store) (o1 : Outcome)
    (h1 : resolveMention st fid1 m = Except.ok (st1, o1))
    (hex1 : (exactSetOf (findAliasCandidates st m.mentionText m.mentionNormalized
      m.entityType)).length ≤ 1) :
    ∃ cid, o1.canonId? = some cid ∧
      ∃ st2 mid2, resolveMention st1 fid2 m =
          Except.ok (st2, Outcome.mergedInto cid mid2) ∧
        st2.aliases = st1.aliases := by
  simp only [resolveMention] at h1
  split at h1
  · rename_i hguard2
    rcases hguard2 with hlt | ⟨hex0, _⟩
    · exact absurd hlt (Nat.not_lt.mpr hex1)
    · obtain ⟨ho, hcanon, hrowEx, hreg, hinv1⟩ :=
        ambiguousBranch_spec st fid1 m _ hInv st1 o1 h1
      obtain ⟨tailA, haliases, htail⟩ :=
        ambiguousBranch_aliases_ext st fid1 m _ st1 o1 h1
      have hExNil : exactSetOf (findAliasCandidates st m.mentionText
          m.mentionNormalized m.entityType) = [] := List.length_eq_zero.mp hex0
      have hfilnil := exact_filter_nil st m.mentionText m.mentionNormalized
        m.entityType hExNil
      obtain ⟨a, ham, haown, hanorm⟩ := hreg m.mentionNormalized
        (List.mem_cons_self _ _)
      have hatail : a ∈ tailA := by
        rw [haliases] at ham
        rcases List.mem_append.mp ham with h2 | h2
        · exact absurd haown (alias_fresh st hInv a h2)
        · exact h2
      have hEx2 : exactSetOf (findAliasCandidates st1 m.mentionText
          m.mentionNormalized m.entityType) = [st.nextCanonId] := by
        rw [exactSetOf_eq, haliases]
        exact exact_filter_extended _ st.aliases tailA st.nextCanonId
          (Or.inr ⟨hfilnil, a, hatail, by simp [(htail a hatail).2, hanorm], haown⟩)
          (fun x hx2 => (htail x hx2).1)
      have hmemC : canonRowWritten st m true (some ("ambiguous_alias_match")) ∈
          st1.canon := by
        rw [hcanon]
        exact List.mem_append_right _ (List.mem_singleton_self _)
      have hfind : st1.canon.find? (fun e => e.id == st.nextCanonId) =
          some (canonRowWritten st m true (some ("ambiguous_alias_match"))) :=
        find_by_id st1.canon _ st.nextCanonId hinv1.1 hmemC rfl
      have hres2 := resolveMention_merge_exact_eq st1 fid2 m st.nextCanonId
        (canonRowWritten st m true (some ("ambiguous_alias_match"))) hEx2 hfind
      obtain ⟨hout2, _, _, _, _, _⟩ := mergeBranch_spec st1 fid2 m
        (canonRowWritten st m true (some ("ambiguous_alias_match"))) hinv1 hmemC rfl
      have hnoop := mergeBranch_aliases_noop st1 fid2 m
        (canonRowWritten st m true (some ("ambiguous_alias_match")))
        (fun s hs => hreg s hs)
      refine ⟨st.nextCanonId, by rw [ho]; rfl,
        (mergeBranch st1 fid2 m
          (canonRowWritten st m true (some ("ambiguous_alias_match")))).1,
        st1.nextMentionId, ?_, hnoop⟩
      rw [hres2]
      have hkid : (canonRowWritten st m true (some ("ambiguous_alias_match"))).id =
          st.nextCanonId := rfl
      rw [← hkid, ← hout2]
  · rename_i hguard
    split at h1
    · rename_i heqChosen
      by_cases he1 : (exactSetOf (findAliasCandidates st m.mentionText
          m.mentionNormalized m.entityType)).length = 1
      · rw [if_pos he1] at heqChosen
        exact absurd heqChosen (head_ne_none _ he1)
      · have hex0 : (exactSetOf (findAliasCandidates st m.mentionText
            m.mentionNormalized m.entityType)).length = 0 := by
          rcases Nat.lt_or_ge 1 (exactSetOf (findAliasCandidates st m.mentionText
              m.mentionNormalized m.entityType)).length with hlt | hle
          · exact absurd (Or.inl hlt) hguard
          · omega
        have hExNil : exactSetOf (findAliasCandidates st m.mentionText
            m.mentionNormalized m.entityType) = [] := List.length_eq_zero.mp hex0
        simp only [Except.ok.injEq] at h1
        have hst1 : (createBranch st fid1 m).1 = st1 := by rw [h1]
        have ho1 : (createBranch st fid1 m).2 = o1 := by rw [h1]
        obtain ⟨hout, hcanon, hlinks, hreg, hrowEx, hinv1⟩ := createBranch_spec st fid1 m hInv
        rw [hst1] at hcanon hreg hinv1
        have ho1eq : o1 = Outcome.createdNew st.nextCanonId st.nextMentionId := by
          rw [← ho1, hout]
        obtain ⟨tailA, haliases, htail⟩ := createBranch_aliases_ext st fid1 m
        rw [hst1] at haliases
        have hfilnil := exact_filter_nil st m.mentionText m.mentionNormalized
          m.entityType hExNil
        obtain ⟨a, ham, haown, hanorm⟩ := hreg m.mentionNormalized
          (List.mem_cons_self _ _)
        have hatail : a ∈ tailA := by
          rw [haliases] at ham
          rcases List.mem_append.mp ham with h2 | h2
          · exact absurd haown (alias_fresh st hInv a h2)
          · exact h2
        have hEx2 : exactSetOf (findAliasCandidates st1 m.mentionText
            m.mentionNormalized m.entityType) = [st.nextCanonId] := by
          rw [exactSetOf_eq, haliases]
          exact exact_filter_extended _ st.aliases tailA st.nextCanonId
            (Or.inr ⟨hfilnil, a, hatail, by simp [(htail a hatail).2, hanorm], haown⟩)
            (fun x hx => (htail x hx).1)
        have hmemC : canonRowWritten st m false none ∈ st1.canon := by
          rw [hcanon]
          exact List.mem_append_right _ (List.mem_singleton_self _)
        have hfind : st1.canon.find? (fun e => e.id == st.nextCanonId) =
            some (canonRowWritten st m false none) :=
          find_by_id st1.canon _ st.nextCanonId hinv1.1 hmemC rfl
        have hres2 := resolveMention_merge_exact_eq st1 fid2 m st.nextCanonId
          (canonRowWritten st m false none) hEx2 hfind
        obtain ⟨hout2, _, _, _, _, _⟩ := mergeBranch_spec st1 fid2 m
          (canonRowWritten st m false none) hinv1 hmemC rfl
        have hnoop := mergeBranch_aliases_noop st1 fid2 m
          (canonRowWritten st m false none) (fun s hs => hreg s hs)
        refine ⟨st.nextCanonId, by rw [ho1eq]; rfl,
          (mergeBranch st1 fid2 m (canonRowWritten st m false none)).1,
          st1.nextMentionId, ?_, hnoop⟩
        rw [hres2]
        have hkid : (canonRowWritten st m false none).id = st.nextCanonId := rfl
        rw [← hkid, ← hout2]
    · rename_i cid heqChosen
      have hsrc : exactSetOf (findAliasCandidates st m.mentionText m.mentionNormalized
            m.entityType) = [cid] ∨
          (exactSetOf (findAliasCandidates st m.mentionText m.mentionNormalized
            m.entityType) = [] ∧
           keySetOf (findAliasCandidates st m.mentionText m.mentionNormalized
            m.entityType) = [cid]) := by
        by_cases he1 : (exactSetOf (findAliasCandidates st m.mentionText
            m.mentionNormalized m.entityType)).length = 1
        · rw [if_pos he1] at heqChosen
          exact Or.inl (singleton_of_len_one_head _ cid he1 heqChosen)
        · rw [if_neg he1] at heqChosen
          by_cases hk1 : (keySetOf (findAliasCandidates st m.mentionText
              m.mentionNormalized m.entityType)).length = 1
          · rw [if_pos hk1] at heqChosen
            have hex0 : (exactSetOf (findAliasCandidates st m.mentionText
                m.mentionNormalized m.entityType)).length = 0 := by
              rcases Nat.lt_or_ge 1 (exactSetOf (findAliasCandidates st m.mentionText
                  m.mentionNormalized m.entityType)).length with hlt | hle
              · exact absurd (Or.inl hlt) hguard
              · omega
            exact Or.inr ⟨List.length_eq_zero.mp hex0,
              singleton_of_len_one_head _ cid hk1 heqChosen⟩
          · rw [if_neg hk1] at heqChosen
            cases heqChosen
      have hcidIn : cid ∈ exactSetOf (findAliasCandidates st m.mentionText
          m.mentionNormalized m.entityType) ∨
          cid ∈ keySetOf (findAliasCandidates st m.mentionText
            m.mentionNormalized m.entityType) := by
        rcases hsrc with h | ⟨_, h⟩
        · exact Or.inl (by rw [h]; exact List.mem_singleton_self cid)
        · exact Or.inr (by rw [h]; exact List.mem_singleton_self cid)
      obtain ⟨canonical2, hfind2, hmem2, hid2, hty2⟩ := chosen_sound st m.mentionText
        m.mentionNormalized m.entityType cid hInv hcidIn
      split at h1
      · rename_i hfindNone
        rw [hfindNone] at hfind2
        cases hfind2
      · rename_i canonical hfindSome
        have hceq : canonical2 = canonical := by
          rw [hfindSome] at hfind2
          exact (Option.some.injEq _ _ ▸ hfind2).symm
        subst hceq
        simp only [Except.ok.injEq] at h1
        have hst1 : (mergeBranch st fid1 m canonical2).1 = st1 := by rw [h1]
        have ho1 : (mergeBranch st fid1 m canonical2).2 = o1 := by rw [h1]
        obtain ⟨hout, hcanon, hlinks, hreg, hrowEx, hinv1⟩ :=
          mergeBranch_spec st fid1 m canonical2 hInv hmem2 hty2
        rw [hst1] at hcanon hreg hinv1
        have ho1eq : o1 = Outcome.mergedInto canonical2.id st.nextMentionId := by
          rw [← ho1, hout]
        obtain ⟨tailA, haliases, htail⟩ := mergeBranch_aliases_ext st fid1 m canonical2
        rw [hst1] at haliases
        have hEx2 : exactSetOf (findAliasCandidates st1 m.mentionText
            m.mentionNormalized m.entityType) = [cid] := by
          rw [exactSetOf_eq, haliases]
          refine exact_filter_extended _ st.aliases tailA cid ?_
            (fun x hx => (htail x hx).1.trans hid2)
          rcases hsrc with hA | ⟨hExNil, _⟩
          · left
            rw [← exactSetOf_eq st m.mentionText m.mentionNormalized m.entityType]
            exact hA
          · right
            have hfilnil := exact_filter_nil st m.mentionText m.mentionNormalized
              m.entityType hExNil
            obtain ⟨a, ham, haown, hanorm⟩ := hreg m.mentionNormalized
              (List.mem_cons_self _ _)
            have hatail : a ∈ tailA := by
              rw [haliases] at ham
              rcases List.mem_append.mp ham with h2 | h2
              · have haty : a.entityType = m.entityType :=
                  (alias_owner_type st hInv canonical2 hmem2 a h2 haown).trans hty2
                have hin : a ∈ st.aliases.filter (fun x =>
                    x.entityType == m.entityType &&
                      x.aliasNormalized == m.mentionNormalized) :=
                  List.mem_filter.mpr ⟨h2, by simp [haty, hanorm]⟩
                rw [hfilnil] at hin
                exact absurd hin (List.not_mem_nil a)
              · exact h2
            exact ⟨hfilnil, a, hatail, by simp [(htail a hatail).2, hanorm],
              haown.trans hid2⟩
        have hmem1 : canonical2 ∈ st1.canon := by
          rw [hcanon]
          exact hmem2
        have hfind1 : st1.canon.find? (fun e => e.id == cid) = some canonical2 := by
          rw [hcanon]
          exact hfindSome
        have hres2 := resolveMention_merge_exact_eq st1 fid2 m cid canonical2 hEx2 hfind1
        obtain ⟨hout2, _, _, _, _, _⟩ :=
          mergeBranch_spec st1 fid2 m canonical2 hinv1 hmem1 hty2
        have hnoop := mergeBranch_aliases_noop st1 fid2 m canonical2
          (fun s hs => hreg s hs)
        refine ⟨cid, by rw [ho1eq, hid2]; rfl,
          (mergeBranch st1 fid2 m canonical2).1, st1.nextMentionId, ?_, hnoop⟩
        rw [hres2, ← hid2, ← hout2]

/-- First resolution of the John Smith mention on the store whose two
entities carry smith only as a fingerprint alias: the resolution is
fingerprint-only ambiguous and mints placeholder 3. -/
def c2FpRun1 : Store × Outcome :=
  match resolveMention c2Store 1 c4Mention with
  | Except.ok p => p
  | Except.error _ => (c2Store, Outcome.skippedMissing)

/-- C2 amended witness: John Smith against the two-fingerprint-smith store
is fingerprint-only ambiguous (exact set empty) and resolves to placeholder
3; resolving it again merges into 3 and leaves the alias table unchanged. -/
theorem c2_idempotent_unless_exact_ambiguous_witness :
    ∃ cid, (c2FpRun1.2).canonId? = some cid ∧
      ∃ st2 mid2, resolveMention c2FpRun1.1 2 c4Mention =
          Except.ok (st2, Outcome.mergedInto cid mid2) ∧
        st2.aliases = c2FpRun1.1.aliases :=
  c2_idempotent_unless_exact_ambiguous c2Store 1 2 c4Mention (by decide)
    c2FpRun1.1 c2FpRun1.2 rfl (by decide)

/-! ## C9 -/

/-- Membership in setAdd. -/
theorem mem_setAdd (l : List String) (x s : String) :
    s ∈ setAdd l x ↔ s ∈ l ∨ s = x := by
  unfold setAdd
  by_cases h : x ∈ l
  · simp only [h, if_true]
    constructor
    · exact fun hs => Or.inl hs
    · rintro (hs | rfl)
      · exact hs
      · exact h
  · simp [h]

/-- C9: buildKeyFingerprints always contains the full normalized text; for
PERSON and ORGANIZATION it additionally contains the last token when that
token has length at least 4; LOCATION gets no secondary fingerprint; a text
normalizing to the empty string yields the empty set. -/
theorem c9_buildKeyFingerprints_characterization (entityType : EntityType) (text s : String) :
    s ∈ buildKeyFingerprints entityType text ↔
      normalizeMention text ≠ "" ∧
        (s = normalizeMention text ∨
          ((entityType = EntityType.PERSON ∨ entityType = EntityType.ORGANIZATION) ∧
            s = lastTokenOf (normalizeMention text) ∧
            4 ≤ (lastTokenOf (normalizeMention text)).length)) := by
  unfold buildKeyFingerprints
  by_cases h0 : normalizeMention text = ""
  · simp [h0]
  · simp only [h0, if_false, ne_eq, not_false_iff, true_and]
    by_cases hty : entityType = EntityType.PERSON ∨ entityType = EntityType.ORGANIZATION
    · simp only [hty, if_true, true_and]
      by_cases hlen : 4 ≤ (lastTokenOf (normalizeMention text)).length
      · simp only [hlen, if_true, and_true]
        rw [mem_setAdd]
        simp
      · simp [hlen]
    · simp only [hty, if_false, false_and, or_false, List.mem_singleton]

/-! ## C3 -/

/-- C3: findAliasCandidates returns the same canonical entity twice when it
matches by exact alias and by fingerprint; the seen keys carry the mechanism
tag, so the cross-mechanism deduplication the spec describes never fires. -/
theorem c3_duplicate_candidate_entity :
    (findAliasCandidates c3Store ("Jeffrey Epstein") ("jeffrey epstein")
        EntityType.PERSON).map (fun c => (c.canonicalEntityId, c.reason)) =
      [(1, Reason.exact), (1, Reason.keyFp)] := by
  decide

/-! ## C4 -/

/-- C4: in the ambiguous branch one candidate link is attempted per candidate
list entry, not per distinct candidate entity; with entity 1 present in both
mechanisms the second insert for entity 1 violates the unique index on
(mentionId, candidateCanonicalEntityId) and the whole resolution fails,
although only two distinct candidate entities were found. -/
theorem c4_duplicate_link_violation :
    dedupeNats [] ((findAliasCandidates c4Store ("John Smith") ("john smith")
        EntityType.PERSON).map (fun c => c.canonicalEntityId)) = [1, 2] ∧
      resolveMention c4Store 1 c4Mention = Except.error linkUniqueViolation := by
  constructor
  · decide
  · decide

/-! ## C5 -/

/-- C5 counterexample: the source strips an honorific followed by a period
and whitespace, the wording of the claim (prefix followed by whitespace)
does not. -/
theorem c5_counterexample_period :
    normalizeMention ("mr. epstein") = ("epstein") ∧
      claimNormalizeMention ("mr. epstein") = ("mr epstein") := by
  constructor
  · decide
  · decide

/-! ## C5 equivalence between the source normalizer and the amended
specification wording -/

/-- Send every whitespace-class character to a plain space. -/
def wsToSp (c : Char) : Char := if jsWs c then ' ' else c

theorem lowerAlpha_not_ws (c : Char) (h : lowerAlpha c = true) : jsWs c = false := by
  simp only [lowerAlpha, decide_eq_true_eq] at h
  simp only [jsWs, decide_eq_false_iff_not]
  push_neg
  omega

theorem digitChar_not_ws (c : Char) (h : digitChar c = true) : jsWs c = false := by
  simp only [digitChar, decide_eq_true_eq] at h
  simp only [jsWs, decide_eq_false_iff_not]
  push_neg
  omega

theorem jsWs_space : jsWs ' ' = true := by decide

theorem wsToSp_eq_space_iff (c : Char) : wsToSp c = ' ' ↔ jsWs c = true := by
  unfold wsToSp
  by_cases h : jsWs c = true
  · simp [h]
  · rw [if_neg h]
    constructor
    · intro hc
      rw [hc]
      exact jsWs_space
    · intro hc
      exact absurd hc h

/-- Pointwise: the space-only replacement of the spec wording equals the
whitespace-preserving replacement of the source followed by sending
whitespace to a space. -/
theorem replace_char_agree (c : Char) :
    (if lowerAlpha c ∨ digitChar c ∨ c = ' ' then c else ' ') =
      wsToSp (if lowerAlpha c ∨ digitChar c ∨ jsWs c then c else ' ') := by
  by_cases la : lowerAlpha c
  · simp only [la, true_or, if_true, wsToSp, lowerAlpha_not_ws c la, Bool.false_eq_true,
      if_false]
  · by_cases dg : digitChar c
    · simp only [la, dg, true_or, or_true, false_or, if_true, wsToSp,
        digitChar_not_ws c dg, Bool.false_eq_true, if_false]
    · by_cases ws : jsWs c
      · by_cases sp : c = ' '
        · simp [la, dg, sp, ws, wsToSp, jsWs_space]
        · simp [la, dg, sp, ws, wsToSp]
      · have sp : c ≠ ' ' := by
          intro hc
          rw [hc] at ws
          exact ws jsWs_space
        simp [la, dg, sp, ws, wsToSp, jsWs_space]

theorem replaceSp_eq_map (l : List Char) :
    replaceNonAlnumSp l = (replaceNonAlnumWs l).map wsToSp := by
  unfold replaceNonAlnumSp replaceNonAlnumWs
  rw [List.map_map]
  exact List.map_congr_left (fun c _ => replace_char_agree c)

/-- Collapsing space runs after sending whitespace to spaces is the same as
collapsing whitespace runs. -/
theorem collapseSp_map : ∀ l : List Char,
    collapseSpChars (l.map wsToSp) = collapseWsChars l
  | [] => rfl
  | [c] => by
    by_cases h : jsWs c
    · simp [collapseSpChars, collapseWsChars, wsToSp, h]
    · simp [collapseSpChars, collapseWsChars, wsToSp, h]
  | c :: d :: cs => by
    have ih := collapseSp_map (d :: cs)
    simp only [List.map_cons] at ih
    show collapseSpChars (wsToSp c :: wsToSp d :: cs.map wsToSp) =
      collapseWsChars (c :: d :: cs)
    simp only [collapseSpChars, collapseWsChars]
    by_cases hc : jsWs c = true
    · have hc1 : wsToSp c = ' ' := (wsToSp_eq_space_iff c).mpr hc
      by_cases hd : jsWs d = true
      · have hd1 : wsToSp d = ' ' := (wsToSp_eq_space_iff d).mpr hd
        rw [if_pos ⟨hc1, hd1⟩, if_pos ⟨hc, hd⟩]
        exact ih
      · have hd1 : wsToSp d ≠ ' ' := fun h => hd ((wsToSp_eq_space_iff d).mp h)
        rw [if_neg (fun hand => hd1 hand.2), if_neg (fun hand => hd hand.2), ih, hc1,
          if_pos hc]
    · have hc1 : wsToSp c ≠ ' ' := fun h => hc ((wsToSp_eq_space_iff c).mp h)
      have hc2 : wsToSp c = c := by unfold wsToSp; rw [if_neg hc]
      rw [if_neg (fun hand => hc1 hand.1), if_neg (fun hand => hc hand.1), ih, hc2,
        if_neg hc]

/-- Every whitespace-class character surviving collapseWsChars is a plain
space. -/
theorem collapseWs_ws_space : ∀ l : List Char, ∀ c ∈ collapseWsChars l,
    jsWs c = true → c = ' '
  | [], c, hc, _ => by simp [collapseWsChars] at hc
  | [d], c, hc, hws => by
    simp only [collapseWsChars, List.mem_singleton] at hc
    by_cases h : jsWs d = true
    · rw [if_pos h] at hc
      exact hc
    · rw [if_neg h] at hc
      subst hc
      exact absurd hws h
  | d :: e :: cs, c, hc, hws => by
    simp only [collapseWsChars] at hc
    by_cases hd : jsWs d = true
    · by_cases he : jsWs e = true
      · rw [if_pos ⟨hd, he⟩] at hc
        exact collapseWs_ws_space (e :: cs) c hc hws
      · rw [if_neg (fun hand => he hand.2), if_pos hd] at hc
        rcases List.mem_cons.mp hc with rfl | hc2
        · rfl
        · exact collapseWs_ws_space (e :: cs) c hc2 hws
    · rw [if_neg (fun hand => hd hand.1), if_neg hd] at hc
      rcases List.mem_cons.mp hc with rfl | hc2
      · exact absurd hws hd
      · exact collapseWs_ws_space (e :: cs) c hc2 hws

/-- dropWhile only depends on the predicate values on the list. -/
theorem dropWhileCongr (p q : Char → Bool) :
    ∀ l : List Char, (∀ c ∈ l, p c = q c) → l.dropWhile p = l.dropWhile q
  | [], _ => rfl
  | c :: cs, h => by
    have hc := h c (List.mem_cons_self c cs)
    by_cases hp : p c = true
    · rw [List.dropWhile_cons_of_pos hp, List.dropWhile_cons_of_pos (hc ▸ hp)]
      exact dropWhileCongr p q cs (fun d hd => h d (List.mem_cons_of_mem c hd))
    · have hp2 : ¬(q c = true) := fun hq => hp (hc ▸ hq)
      rw [List.dropWhile_cons_of_neg (by simpa using hp),
        List.dropWhile_cons_of_neg (by simpa using hp2)]

/-- On a list whose whitespace is all plain spaces, the JS trim and the
space trim of the spec wording agree. -/
theorem trim_agree (m : List Char) (h : ∀ c ∈ m, jsWs c = true → c = ' ') :
    jsTrimChars m = trimSpChars m := by
  unfold jsTrimChars trimSpChars
  have agree : ∀ c ∈ m, (jsWs c) = (decide (c = ' ')) := by
    intro c hc
    by_cases hw : jsWs c = true
    · have hsp := h c hc hw
      subst hsp
      decide
    · rcases Decidable.em (c = ' ') with hsp | hsp
      · subst hsp
        exact absurd jsWs_space hw
      · simp only [Bool.not_eq_true] at hw
        simp [hw, hsp]
  rw [dropWhileCongr _ _ m agree]
  congr 1
  apply dropWhileCongr
  intro c hc
  apply agree
  exact (List.dropWhile_sublist _).subset (List.mem_reverse.mp hc)

theorem jsWs_not_word (c : Char) (h : jsWs c = true) : jsWordChar c = false := by
  simp only [jsWs, decide_eq_true_eq] at h
  simp only [jsWordChar, decide_eq_false_iff_not]
  push_neg
  omega

theorem jsLower_ws (c : Char) (h : jsWs c = true) : jsLower c = c := by
  simp only [jsWs, decide_eq_true_eq] at h
  unfold jsLower
  rw [if_neg]
  omega

/-- No honorific alternative matches at a whitespace character. -/
theorem ws_no_honorific (allowDot : Bool) (c : Char) (cs : List Char)
    (h : jsWs c = true) : tryHonorifics allowDot honorificWords (c :: cs) = none := by
  simp only [jsWs, decide_eq_true_eq] at h
  have hm : c ≠ 'm' := fun he => absurd (he ▸ h) (by decide)
  have hd : c ≠ 'd' := fun he => absurd (he ▸ h) (by decide)
  have hp : c ≠ 'p' := fun he => absurd (he ▸ h) (by decide)
  have hs : c ≠ 's' := fun he => absurd (he ▸ h) (by decide)
  have hj : c ≠ 'j' := fun he => absurd (he ▸ h) (by decide)
  have hh : c ≠ 'h' := fun he => absurd (he ▸ h) (by decide)
  simp [tryHonorifics, honorificWords, chopWord, hm, hd, hp, hs, hj, hh]

/-- The honorific pass is the identity on all-whitespace text. -/
theorem strip_ws_id (allowDot : Bool) : ∀ (n : Nat) (cs : List Char),
    (∀ c ∈ cs, jsWs c = true) → stripHonGo allowDot n false cs = cs
  | 0, cs, _ => rfl
  | _ + 1, [], _ => rfl
  | n + 1, c :: cs, h => by
    have hc := h c (List.mem_cons_self c cs)
    rw [stripHonGo, if_neg (by simp), ws_no_honorific allowDot c cs hc,
      jsWs_not_word c hc]
    exact congrArg (c :: ·)
      (strip_ws_id allowDot n cs (fun d hd => h d (List.mem_cons_of_mem c hd)))

/-- The replacement pass keeps whitespace. -/
theorem replace_ws_id : ∀ cs : List Char,
    (∀ c ∈ cs, jsWs c = true) → replaceNonAlnumWs cs = cs := by
  intro cs h
  unfold replaceNonAlnumWs
  calc cs.map _ = cs.map id := List.map_congr_left (fun c hc => by simp [h c hc])
  _ = cs := List.map_id cs

/-- Collapsing an all-whitespace nonempty list yields a single space. -/
theorem collapse_allws : ∀ (c0 : Char) (cs : List Char),
    (∀ c ∈ c0 :: cs, jsWs c = true) → collapseWsChars (c0 :: cs) = [' ']
  | c0, [], h => by
    simp only [collapseWsChars]
    rw [if_pos (h c0 (List.mem_cons_self c0 []))]
  | c0, c1 :: cs, h => by
    simp only [collapseWsChars]
    rw [if_pos ⟨h c0 (List.mem_cons_self c0 _),
      h c1 (List.mem_cons_of_mem c0 (List.mem_cons_self c1 cs))⟩]
    exact collapse_allws c1 cs (fun d hdm => h d (List.mem_cons_of_mem c0 hdm))

/-- Normalizing an all-whitespace (in particular empty) string yields the
empty string. -/
theorem normalize_ws_only (s : String) (h : ∀ c ∈ s.data, jsWs c = true) :
    normalizeMention s = "" := by
  obtain ⟨data⟩ := s
  have h2 : ∀ c ∈ data, jsWs c = true := h
  show String.mk (jsTrimChars (collapseWsChars (replaceNonAlnumWs
    (stripHonGo true (data.map jsLower).length false (data.map jsLower))))) = ""
  have hmap : data.map jsLower = data := by
    calc data.map jsLower = data.map id :=
        List.map_congr_left (fun c hc => jsLower_ws c (h2 c hc))
    _ = data := List.map_id data
  rw [hmap, strip_ws_id true data.length data h2, replace_ws_id data h2]
  cases data with
  | nil => decide
  | cons c0 cs =>
    rw [collapse_allws c0 cs h2]
    decide

/-- Every mention row assembled by the extraction loop carries a nonempty
normalized text: empty normalizations are discarded before resolution. -/
theorem mentionRows_norm_ne : ∀ (fullText : String) (offset : Nat) (chunkText : String)
    (es : List ExtractedEntity) (r : MentionRow),
    r ∈ mentionRowsOfChunk fullText offset chunkText es → r.mentionNormalized ≠ ""
  | ft, off, ct, [], r, hr => by simp [mentionRowsOfChunk] at hr
  | ft, off, ct, e :: es, r, hr => by
    simp only [mentionRowsOfChunk] at hr
    by_cases h1 : jsTrim e.text = ""
    · rw [if_pos h1] at hr
      exact mentionRows_norm_ne ft off ct es r hr
    · rw [if_neg h1] at hr
      by_cases h2 : normalizeMention (jsTrim e.text) = ""
      · rw [if_pos h2] at hr
        exact mentionRows_norm_ne ft off ct es r hr
      · rw [if_neg h2] at hr
        rcases List.mem_cons.mp hr with rfl | hr2
        · exact h2
        · exact mentionRows_norm_ne ft off ct es r hr2

/-- C5 (amended): the source normalizer equals the specification wording
once the honorific may optionally be followed by a period; an all-whitespace
or empty input normalizes to the empty string; and the pipeline discards
every mention whose normalized form is empty before resolution. -/
theorem c5_normalizer_amended :
    (∀ s : String, normalizeMention s = amendedNormalizeMention s) ∧
      (∀ s : String, (∀ c ∈ s.data, jsWs c = true) → normalizeMention s = "") ∧
      (∀ (fullText : String) (offset : Nat) (chunkText : String)
          (es : List ExtractedEntity) (r : MentionRow),
        r ∈ mentionRowsOfChunk fullText offset chunkText es → r.mentionNormalized ≠ "") := by
  refine ⟨fun s => ?_, normalize_ws_only, mentionRows_norm_ne⟩
  unfold normalizeMention amendedNormalizeMention
  rw [replaceSp_eq_map, collapseSp_map]
  exact congrArg String.mk (trim_agree _ (collapseWs_ws_space _))

/-- C5 witness: the amended theorem applied at concrete inputs. -/
theorem c5_normalizer_amended_witness :
    ((∀ c ∈ ("  \t ").data, jsWs c = true) ∧ normalizeMention ("  \t ") = "") ∧
      ((⟨"Ab", EntityType.PERSON, "ab", some 0, "Ab x"⟩ : MentionRow) ∈
          mentionRowsOfChunk ("Ab x") 0 ("Ab x")
            [⟨"Ab", EntityType.PERSON, none, some 0⟩] ∧
        (⟨"Ab", EntityType.PERSON, "ab", some 0, "Ab x"⟩ : MentionRow).mentionNormalized ≠ "") :=
  ⟨⟨by decide, c5_normalizer_amended.2.1 ("  \t ") (by decide)⟩,
    ⟨by decide,
      c5_normalizer_amended.2.2 ("Ab x") 0 ("Ab x")
        [⟨"Ab", EntityType.PERSON, none, some 0⟩]
        ⟨"Ab", EntityType.PERSON, "ab", some 0, "Ab x"⟩ (by decide)⟩⟩

/-! ## C6 -/

/-- Same type, same normalized text, same (absent) position, different raw
surface forms. -/
def c6Row1 : MentionRow := ⟨"Smith.", EntityType.PERSON, "smith", none, ""⟩

/-- The second surface form of the pair. -/
def c6Row2 : MentionRow := ⟨"Smith!", EntityType.PERSON, "smith", none, ""⟩

/-- C6 counterexample: the two rows agree on (type, normalizedText,
position), yet the source keeps both, because its key also contains the
lowercased raw mention text; deduplication by the three-part key of the
claim would keep only one. -/
theorem c6_counterexample_key :
    claimMentionKey c6Row1 = claimMentionKey c6Row2 ∧
      dedupeMentionRows [] [c6Row1, c6Row2] = [c6Row1, c6Row2] ∧
      claimDedupeMentionRows [] [c6Row1, c6Row2] = [c6Row1] := by
  refine ⟨by decide, by decide, by decide⟩

/-- Rows surviving deduplication come from the input and their key was not
seen. -/
theorem dedupe_mem : ∀ (seen : List (EntityType × String × Int × String))
    (rows : List MentionRow) (m2 : MentionRow), m2 ∈ dedupeMentionRows seen rows →
    m2 ∈ rows ∧ mentionKey m2 ∉ seen
  | _, [], _, hm => by simp [dedupeMentionRows] at hm
  | seen, m :: ms, m2, hm => by
    rw [dedupeMentionRows] at hm
    by_cases h : mentionKey m ∈ seen
    · rw [if_pos h] at hm
      have := dedupe_mem seen ms m2 hm
      exact ⟨List.mem_cons_of_mem m this.1, this.2⟩
    · rw [if_neg h] at hm
      rcases List.mem_cons.mp hm with rfl | hm2
      · exact ⟨List.mem_cons_self m2 ms, h⟩
      · have := dedupe_mem (mentionKey m :: seen) ms m2 hm2
        exact ⟨List.mem_cons_of_mem m this.1,
          fun hs => this.2 (List.mem_cons_of_mem (mentionKey m) hs)⟩

/-- Every input row whose key was not seen has a same-key representative in
the deduplicated output. -/
theorem dedupe_rep : ∀ (seen : List (EntityType × String × Int × String))
    (rows : List MentionRow) (m : MentionRow), m ∈ rows → mentionKey m ∉ seen →
    ∃ m2, m2 ∈ dedupeMentionRows seen rows ∧ mentionKey m2 = mentionKey m
  | _, [], m, hm, _ => absurd hm (List.not_mem_nil m)
  | seen, m0 :: ms, m, hm, hs => by
    rw [dedupeMentionRows]
    by_cases h : mentionKey m0 ∈ seen
    · rw [if_pos h]
      rcases List.mem_cons.mp hm with rfl | hm2
      · exact absurd h hs
      · exact dedupe_rep seen ms m hm2 hs
    · rw [if_neg h]
      by_cases hk : mentionKey m = mentionKey m0
      · exact ⟨m0, List.mem_cons_self m0 _, hk.symm⟩
      · rcases List.mem_cons.mp hm with rfl | hm2
        · exact absurd rfl hk
        · have hs2 : mentionKey m ∉ mentionKey m0 :: seen := by
            intro hmem
            rcases List.mem_cons.mp hmem with he | he
            · exact hk he
            · exact hs he
          obtain ⟨m2, hm2d, hkey⟩ := dedupe_rep (mentionKey m0 :: seen) ms m hm2 hs2
          exact ⟨m2, List.mem_cons_of_mem m0 hm2d, hkey⟩

/-- All keys in the deduplicated output are pairwise distinct. -/
theorem dedupe_pairwise : ∀ (seen : List (EntityType × String × Int × String))
    (rows : List MentionRow),
    (dedupeMentionRows seen rows).Pairwise (fun a b => mentionKey a ≠ mentionKey b)
  | _, [] => List.Pairwise.nil
  | seen, m :: ms => by
    rw [dedupeMentionRows]
    by_cases h : mentionKey m ∈ seen
    · rw [if_pos h]
      exact dedupe_pairwise seen ms
    · rw [if_neg h]
      refine List.Pairwise.cons ?_ (dedupe_pairwise (mentionKey m :: seen) ms)
      intro b hb hkey
      have := (dedupe_mem (mentionKey m :: seen) ms b hb).2
      exact this (hkey ▸ List.mem_cons_self (mentionKey m) _)

/-- C6 (amended): raw mentions are deduplicated by exactly the four-part key
(entity type, normalized text, position, lowercased raw text): the surviving
rows have pairwise distinct keys, every raw mention has a representative
with its key, and nothing new is invented. -/
theorem c6_dedupe_amended (rows : List MentionRow) :
    (dedupeMentionRows [] rows).Pairwise (fun a b => mentionKey a ≠ mentionKey b) ∧
      (∀ m ∈ rows, ∃ m2, m2 ∈ dedupeMentionRows [] rows ∧ mentionKey m2 = mentionKey m) ∧
      (∀ m2 ∈ dedupeMentionRows [] rows, m2 ∈ rows) :=
  ⟨dedupe_pairwise [] rows,
    fun m hm => dedupe_rep [] rows m hm (List.not_mem_nil _),
    fun m2 hm2 => (dedupe_mem [] rows m2 hm2).1⟩

/-- C6 witness: the amended statement applied to a concrete duplicated pair. -/
theorem c6_dedupe_amended_witness :
    ∃ m2, m2 ∈ dedupeMentionRows [] [c6Row1, c6Row1] ∧ mentionKey m2 = mentionKey c6Row1 :=
  (c6_dedupe_amended [c6Row1, c6Row1]).2.1 c6Row1 (by decide)

end DocLLM
